import Mathlib

/-!
Verification development for the django-polaris deposit settlement engine
(`polaris/management/commands/poll_pending_deposits.py` and
`polaris/management/commands/check_trustlines.py`).

The Python source is shallowly embedded: Django model rows become Lean
structures, decimals become rationals (Python's `round(Decimal, n)` uses
banker's rounding, modelled by `roundDec`), network calls to Horizon and to
the anchor's integrations are supplied by an explicit `Env` record of
collaborator functions, and each operation returns the resulting record
together with the persisted snapshots (`save()` calls), outward callbacks
(`maybe_make_callback`) and Horizon submissions it performed.  Raised Python
exceptions are modelled as `PyErr` values carried in an `err` field: `none`
means the call returned normally.
-/

/-- Transaction.STATUS values used by the deposit engine. -/
inductive Status where
  | pending_user_transfer_start
  | pending_external
  | pending_anchor
  | pending_trust
  | pending_stellar
  | completed
  | error
deriving DecidableEq, Repr

/-- Transaction.KIND values. -/
inductive TKind where
  | deposit
  | withdrawal
deriving DecidableEq, Repr

/-- A signer entry of the distribution account (only the weight is read). -/
structure Signer where
  weight : Int
deriving DecidableEq, Repr

/-- Signing thresholds of the distribution account (only med_threshold is read). -/
structure Thresholds where
  med_threshold : Int
deriving DecidableEq, Repr

/-- The Asset configuration row attached to a transaction (read-only to this core). -/
structure AssetInfo where
  code : String
  issuer : String
  distribution_account : String
  distribution_seed : String
  significant_decimals : Nat
  distribution_account_master_signer : Option Signer
  distribution_account_thresholds : Thresholds
deriving DecidableEq, Repr

/-- Operations appearing in a built transaction envelope. -/
inductive Operation where
  | createAccount (destination : String) (startingBalance : String)
  | payment (destination : String) (asset_code : String) (asset_issuer : String)
      (amount : ℚ) (source : String)
  | createClaimableBalance (claimants : List String) (asset_code : String)
      (asset_issuer : String) (amount : ℚ) (source : String)
deriving DecidableEq, Repr

/-- A transaction envelope as produced by TransactionBuilder.  `signatures`
holds the signing seeds appended by `sign` calls; operation amounts are kept
as rationals (the source passes `str(payment_amount)` to the SDK, a faithful
presentation of the same value). -/
structure Envelope where
  sourceAccount : String
  sequence : Int
  baseFee : Nat
  operations : List Operation
  memo : Option (String × String)
  signatures : List String
deriving DecidableEq, Repr

/-- One balance line of a Horizon account record. -/
structure Balance where
  asset_type : String
  asset_code : String
  asset_issuer : String
deriving DecidableEq, Repr

/-- A Horizon account snapshot; doubles as the JSON account record (the code
reads `id`, `sequence` and `balances` from it). -/
structure Account where
  id : String
  sequence : Int
  balances : List Balance
deriving DecidableEq, Repr

/-- A claimable balance identifier as found in a decoded transaction result:
the XDR union CLAIMABLE_BALANCE_ID_TYPE_V0 (4-byte zero discriminant)
followed by the 32-byte hash; only the hash payload varies. -/
structure BalanceID where
  v0 : List (Fin 256)
deriving DecidableEq, Repr

/-- The `tr` union of one operation result inside a decoded TransactionResult;
the code only distinguishes the createClaimableBalanceResult arm
(via `hasattr`). -/
inductive OpTr where
  | createClaimableBalanceResult (balanceID : BalanceID)
  | otherResult
deriving DecidableEq, Repr

/-- One element of `TransactionResult.result.results`. -/
structure OpResult where
  tr : OpTr
deriving DecidableEq, Repr

/-- The decoded TransactionResult of a Horizon submission response. -/
structure TxResult where
  results : List OpResult
deriving DecidableEq, Repr

/-- A successful (HTTP-level) Horizon submission response.  `result_xdr` is
the decoded form of the response's result XDR (decoding is done by the
opaque stellar_sdk); `result_xdr_str` is the same field's raw string as it
appears in the JSON, used only for interpolation into error messages. -/
structure HorizonResponse where
  successful : Bool
  result_xdr : TxResult
  result_xdr_str : String
  envelope_xdr : Envelope
  id : String
  paging_token : String
deriving DecidableEq, Repr

/-- The Transaction model row (deposit record). -/
structure Transaction where
  id : Nat
  kind : TKind
  status : Status
  status_message : Option String
  status_eta : Option Int
  amount_in : Option ℚ
  amount_fee : Option ℚ
  amount_out : Option ℚ
  stellar_account : String
  memo : Option String
  memo_type : String
  asset : AssetInfo
  envelope_xdr : Option Envelope
  paging_token : Option String
  stellar_transaction_id : Option String
  claimable_balance_supported : Bool
  claimable_balance_id : Option String
  pending_signatures : Bool
  channel_account : Option String
  channel_seed : Option String
  completed_at : Option Nat
deriving DecidableEq, Repr

/-- A raised Python exception, by class. -/
inductive PyErr where
  | valueError (msg : String)
  | runtimeError (msg : String)
  | horizonError (msg : String)
deriving DecidableEq, Repr

/-- Result of fetching an account from Horizon. -/
inductive FetchRes where
  | found (a : Account)
  | notFound
  | horizonError (msg : String)
deriving DecidableEq, Repr

/-- Result of submitting an envelope to Horizon: either a raised
BaseHorizonError (class name and message) or a response record. -/
inductive SubmitOut where
  | horizonError (cls : String) (msg : String)
  | response (r : HorizonResponse)
deriving DecidableEq, Repr

/-- Rounding to an integer with Python/Decimal banker's rounding
(ROUND_HALF_EVEN). -/
def roundHalfEven (q : ℚ) : ℤ :=
  let f : ℤ := ⌊q⌋
  let r : ℚ := q - (f : ℚ)
  if r < 1 / 2 then f
  else if 1 / 2 < r then f + 1
  else if f % 2 = 0 then f else f + 1

/-- Python's `round(d, n)` on Decimal values: round to `n` decimal places,
half-to-even. -/
def roundDec (q : ℚ) (n : Nat) : ℚ :=
  ((roundHalfEven (q * (10 : ℚ) ^ n) : ℚ)) / (10 : ℚ) ^ n

/-- The environment of external collaborators: the Horizon ledger client,
the settings module, and the anchor's registered integrations.  `getAccount`
is the ledger's current account-fetch behaviour; `getAccountPost` is the
account-fetch behaviour after the create-account transaction of
`get_or_create_destination_account` has been accepted (the ledger state
changes between the two fetches).  `pubOf` maps a signing seed to the
public key of its keypair (`Keypair.from_secret`). -/
structure Env where
  getAccount : String → FetchRes
  getAccountPost : String → FetchRes
  submitTx : Envelope → SubmitOut
  fetchBaseFee : Nat
  maxTxFeeStroops : Option Nat
  startingBalance : String
  pubOf : String → String
  createChannelAccount : Transaction → String × String
  pollPendingDeposits : List Transaction → List Transaction
  usesBuiltinFee : Bool
  calculateFee : ℚ → String → ℚ
  now : Nat

/-- Effects performed by an operation: persisted snapshots (each `save()`
in order), outward status callbacks, and Horizon transaction submissions. -/
structure Eff where
  saves : List Transaction
  callbacks : List Transaction
  submissions : List Envelope
deriving DecidableEq, Repr

/-- The empty effect record. -/
def Eff.nil : Eff := ⟨[], [], []⟩

/-- Sequential composition of effect records. -/
def Eff.comb (a b : Eff) : Eff :=
  ⟨a.saves ++ b.saves, a.callbacks ++ b.callbacks, a.submissions ++ b.submissions⟩

/-- Result of `PendingDeposits.get_or_create_destination_account`: the
returned pair when the call returned, the transaction record (the
integration may have assigned channel fields), effects, and the raised
exception otherwise. -/
structure GoCRes where
  res : Option (Account × Bool)
  txn : Transaction
  eff : Eff
  err : Option PyErr
deriving DecidableEq, Repr

/-- Result of a per-transaction driver step: the transaction record as left
in storage, effects, and the raised exception if any. -/
structure StepRes where
  txn : Transaction
  eff : Eff
  err : Option PyErr
deriving DecidableEq, Repr

/-- Result of a whole driver pass over the database. -/
structure PassRes where
  db : List Transaction
  eff : Eff
  err : Option PyErr
deriving DecidableEq, Repr

/-- Python's `settings.MAX_TRANSACTION_FEE_STROOPS or fetch_base_fee()`:
a `None` or zero configured maximum falls through to the live base fee. -/
def effBaseFee (env : Env) : Nat :=
  match env.maxTxFeeStroops with
  | some n => if n = 0 then env.fetchBaseFee else n
  | none => env.fetchBaseFee

/-- Modelled from the spec: the repository's `polaris.utils.is_pending_trust`
helper is not under src/.  Acceptance is the asset already being present
among the account's non-native balance lines; the trustline is pending
exactly when it is absent (spec §4.1, §4.5). -/
def is_pending_trust (t : Transaction) (acc : Account) : Bool :=
  !(acc.balances.any fun b =>
    b.asset_type ≠ "native" &&
    b.asset_code = t.asset.code && b.asset_issuer = t.asset.issuer)

/-- Modelled from the spec: the repository's `polaris.utils.get_account_obj`
helper is not under src/.  A missing account is signalled as a RuntimeError
(the "account does not exist" resolution failure); any other ledger-read
failure is surfaced as the underlying Horizon error (spec §4.1). -/
def get_account_obj (env : Env) (pub : String) : Except PyErr Account :=
  match env.getAccount pub with
  | .found a => .ok a
  | .notFound => .error (.runtimeError ("account " ++ pub ++ " does not exist"))
  | .horizonError m => .error (.horizonError m)

/-- Memo attachment: `if transaction.memo:` followed by
`make_memo(transaction.memo, transaction.memo_type)` (make_memo is the
opaque SDK constructor; the pair is kept as-is). -/
def memoOf (t : Transaction) : Option (String × String) :=
  match t.memo with
  | some m => if m = "" then none else some (m, t.memo_type)
  | none => none

namespace MultiSigTransactions

/-- MultiSigTransactions.requires_multisig: true when the distribution
account has no master signer or its weight is below the medium threshold. -/
def requires_multisig (t : Transaction) : Bool :=
  match t.asset.distribution_account_master_signer with
  | none => true
  | some s => s.weight < t.asset.distribution_account_thresholds.med_threshold

/-- MultiSigTransactions.get_channel_keypair: provisions a channel account
through the registered integration when the transaction has none, then
returns the channel signing seed.  The integration assigns and persists the
channel address and seed on the transaction (modelled narrowly: it touches
only those two fields), so the possibly-updated transaction, the seed, and
the persistence effect are returned. -/
def get_channel_keypair (env : Env) (t : Transaction) :
    Transaction × String × Eff :=
  match t.channel_account with
  | some _ => (t, t.channel_seed.getD "", Eff.nil)
  | none =>
      let p := env.createChannelAccount t
      let t1 := { t with channel_account := some p.1, channel_seed := some p.2 }
      (t1, p.2, ⟨[t1], [], []⟩)

end MultiSigTransactions

/-- The base64 alphabet used by the XDR serialization of stellar_sdk
(standard RFC 4648). -/
def b64Alphabet : List Char :=
  "ABCDEFGHIJKLMNOPQRSTUVWXYZabcdefghijklmnopqrstuvwxyz0123456789+/".data

/-- The base64 character for a sextet value. -/
def b64Char (n : Nat) : Char := b64Alphabet.getD n '?'

/-- The sextet value of a base64 character (length of the alphabet when the
character is not in it). -/
def b64CharVal (c : Char) : Nat := b64Alphabet.indexOf c

/-- Truncation of a natural number into a byte. -/
def byteOf (n : Nat) : Fin 256 := ⟨n % 256, Nat.mod_lt _ (by decide)⟩

/-- Modelled from the spec: base64 encoding of a byte string, the opaque
`to_xdr` serialization used by the ledger client library (spec §1 treats the
SDK as external).  Standard base64 with `=` padding. -/
def b64EncodeChars : List (Fin 256) → List Char
  | [] => []
  | [a] => [b64Char (a.val / 4), b64Char (a.val % 4 * 16), '=', '=']
  | [a, b] => [b64Char (a.val / 4), b64Char (a.val % 4 * 16 + b.val / 16),
      b64Char (b.val % 16 * 4), '=']
  | a :: b :: c :: rest =>
      b64Char (a.val / 4) :: b64Char (a.val % 4 * 16 + b.val / 16) ::
      b64Char (b.val % 16 * 4 + c.val / 64) :: b64Char (c.val % 64) ::
      b64EncodeChars rest

/-- Modelled from the spec: `base64.b64decode` of the Python standard
library (external to this repository). -/
def b64DecodeChars : List Char → List (Fin 256)
  | c1 :: c2 :: c3 :: c4 :: rest =>
      let s1 := b64CharVal c1
      let s2 := b64CharVal c2
      if c3 = '=' then [byteOf (s1 * 4 + s2 / 16)]
      else
        let s3 := b64CharVal c3
        if c4 = '=' then
          [byteOf (s1 * 4 + s2 / 16), byteOf (s2 % 16 * 16 + s3 / 4)]
        else
          byteOf (s1 * 4 + s2 / 16) :: byteOf (s2 % 16 * 16 + s3 / 4) ::
          byteOf (s3 % 4 * 64 + b64CharVal c4) :: b64DecodeChars rest
  | _ => []

/-- Python `base64.b64decode` on a string. -/
def b64DecodeStr (s : String) : List (Fin 256) := b64DecodeChars s.data

/-- The lowercase hex digit for a nibble value. -/
def hexDigit (n : Nat) : Char := "0123456789abcdef".data.getD n '?'

/-- The nibble value of a hex digit (16 when the character is not one). -/
def hexVal (c : Char) : Nat := "0123456789abcdef".data.indexOf c

/-- Python `bytes.hex()`: two lowercase hex digits per byte. -/
def hexOfBytes (l : List (Fin 256)) : String :=
  ⟨l.flatMap fun b => [hexDigit (b.val / 16), hexDigit (b.val % 16)]⟩

/-- Inverse of `hexOfBytes` on character lists (`bytes.fromhex`). -/
def hexDecodeChars : List Char → Option (List (Fin 256))
  | [] => some []
  | c1 :: c2 :: rest =>
      if hexVal c1 < 16 ∧ hexVal c2 < 16 then
        (hexDecodeChars rest).map fun l => byteOf (hexVal c1 * 16 + hexVal c2) :: l
      else none
  | _ => none

/-- Inverse of `hexOfBytes` (`bytes.fromhex`). -/
def hexDecode (s : String) : Option (List (Fin 256)) := hexDecodeChars s.data

/-- The XDR byte serialization of a claimable balance id: the four-byte
CLAIMABLE_BALANCE_ID_TYPE_V0 discriminant followed by the hash payload. -/
def BalanceID.xdrBytes (b : BalanceID) : List (Fin 256) :=
  (0 : Fin 256) :: (0 : Fin 256) :: (0 : Fin 256) :: (0 : Fin 256) :: b.v0

/-- Modelled from the spec: `balanceID.to_xdr()` of the opaque ledger client
library, the base64 form of the XDR bytes. -/
def BalanceID.to_xdr (b : BalanceID) : String := ⟨b64EncodeChars b.xdrBytes⟩

/-- The XDR parser for a claimable balance id, inverse of
`BalanceID.xdrBytes`. -/
def decodeBalanceID (l : List (Fin 256)) : Option BalanceID :=
  match l with
  | a :: b :: c :: d :: rest =>
      if a = 0 ∧ b = 0 ∧ c = 0 ∧ d = 0 then some ⟨rest⟩ else none
  | _ => none

/-- True when an operation result is a createClaimableBalanceResult
(the `hasattr(op_result.tr, "createClaimableBalanceResult")` test). -/
def isCCB (op : OpResult) : Bool :=
  match op.tr with
  | .createClaimableBalanceResult _ => true
  | .otherResult => false

namespace PendingDeposits

/-- PendingDeposits.get_balance_id: scan the decoded transaction result for
createClaimableBalanceResult operation results; for each one found, decode
the base64 XDR of its balanceID and keep the hex form (the last match
wins); `none` when no such operation result exists. -/
def get_balance_id (r : HorizonResponse) : Option String :=
  r.result_xdr.results.foldl
    (fun acc op =>
      match op.tr with
      | .createClaimableBalanceResult bid =>
          some (hexOfBytes (b64DecodeStr bid.to_xdr))
      | .otherResult => acc)
    none

/-- PendingDeposits.create_deposit_envelope: build the deposit envelope from
the given source account snapshot, with a create-claimable-balance operation
when claimable balances are supported and the destination does not yet trust
the asset, and a direct payment otherwise.  The destination account is
re-fetched to decide the trustline question; a fetch failure propagates. -/
def create_deposit_envelope (env : Env) (t : Transaction) (source : Account) :
    Except PyErr Envelope :=
  let payment_amount :=
    roundDec (t.amount_in.getD 0 - t.amount_fee.getD 0) t.asset.significant_decimals
  match get_account_obj env t.stellar_account with
  | .error e => .error e
  | .ok destAcc =>
      let ops :=
        if t.claimable_balance_supported && is_pending_trust t destAcc then
          [Operation.createClaimableBalance [t.stellar_account] t.asset.code
            t.asset.issuer payment_amount t.asset.distribution_account]
        else
          [Operation.payment t.stellar_account t.asset.code t.asset.issuer
            payment_amount t.asset.distribution_account]
      .ok { sourceAccount := source.id, sequence := source.sequence + 1,
            baseFee := effBaseFee env, operations := ops, memo := memoOf t,
            signatures := [] }

/-- The statuses from which `submit` accepts a deposit. -/
def validStatuses : List Status :=
  [Status.pending_user_transfer_start, Status.pending_external,
   Status.pending_anchor, Status.pending_trust]

/-- PendingDeposits._handle_error: record the error message and status and
notify. -/
def handle_error (t : Transaction) (message : String) : Transaction :=
  { t with status_message := some message, status := Status.error }

/-- The envelope resolution step of `submit`: reuse a stored envelope as-is,
otherwise fetch the distribution account, build a fresh envelope and sign it
with the distribution seed. -/
def envelopeOf (env : Env) (t : Transaction) : Except PyErr Envelope :=
  match t.envelope_xdr with
  | some e => .ok e
  | none =>
      match get_account_obj env t.asset.distribution_account with
      | .error e => .error e
      | .ok distributionAcc =>
          match create_deposit_envelope env t distributionAcc with
          | .error e => .error e
          | .ok envlp =>
              .ok { envlp with
                    signatures := envlp.signatures ++ [t.asset.distribution_seed] }

end PendingDeposits

/-- Result of `PendingDeposits.submit`: the boolean return value, the
transaction record as left in storage, the effects performed, and the raised
exception if the call did not return normally. -/
structure SubmitRes where
  ok : Bool
  txn : Transaction
  eff : Eff
  err : Option PyErr
deriving DecidableEq, Repr

namespace PendingDeposits

/-- PendingDeposits.submit: require a submittable status, move to
pending_anchor, resolve the envelope, move to pending_stellar, submit to
Horizon, and either record the terminal error or complete the deposit. -/
def submit (env : Env) (t : Transaction) : SubmitRes :=
  if !(validStatuses.contains t.status) then
    { ok := false, txn := t, eff := Eff.nil,
      err := some (.valueError "Unexpected transaction status") }
  else
    let t1 := { t with status := Status.pending_anchor, status_eta := some 5 }
    match envelopeOf env t1 with
    | .error e => { ok := false, txn := t1, eff := ⟨[t1], [t1], []⟩, err := some e }
    | .ok envFinal =>
        let t2 := { t1 with status := Status.pending_stellar }
        match env.submitTx envFinal with
        | .horizonError cls m =>
            let t3 := handle_error t2 (cls ++ ": " ++ m)
            { ok := false, txn := t3,
              eff := ⟨[t1, t2, t3], [t1, t2, t3], [envFinal]⟩, err := none }
        | .response r =>
            if !r.successful then
              let t3 := handle_error t2
                ("Stellar transaction failed when submitted to horizon: "
                  ++ r.result_xdr_str)
              { ok := false, txn := t3,
                eff := ⟨[t1, t2, t3], [t1, t2, t3], [envFinal]⟩, err := none }
            else
              let t3 :=
                if t2.claimable_balance_supported then
                  { t2 with claimable_balance_id := get_balance_id r }
                else t2
              let t4 := { t3 with
                envelope_xdr := some r.envelope_xdr,
                paging_token := some r.paging_token,
                stellar_transaction_id := some r.id,
                status := Status.completed,
                completed_at := some env.now,
                status_eta := some 0,
                amount_out := some (roundDec
                  (t3.amount_in.getD 0 - t3.amount_fee.getD 0)
                  t3.asset.significant_decimals) }
              { ok := true, txn := t4,
                eff := ⟨[t1, t2, t4], [t1, t2, t4], [envFinal]⟩, err := none }

end PendingDeposits


/-- Modelled from the spec: the post-creation re-fetch of the destination
account.  After the create-account transaction is accepted the ledger state
has changed, so the second fetch of
`get_or_create_destination_account` consults `Env.getAccountPost`. -/
def get_account_obj_post (env : Env) (pub : String) : Except PyErr Account :=
  match env.getAccountPost pub with
  | .found a => .ok a
  | .notFound => .error (.runtimeError ("account " ++ pub ++ " does not exist"))
  | .horizonError m => .error (.horizonError m)

/-- The funding source seed used when the destination account must be
created: a channel account seed when the asset's distribution account
requires multisig, the distribution seed otherwise. -/
def fundingChoice (env : Env) (t : Transaction) : Transaction × String × Eff :=
  if MultiSigTransactions.requires_multisig t then
    MultiSigTransactions.get_channel_keypair env t
  else (t, t.asset.distribution_seed, Eff.nil)

/-- The single-operation create-account envelope built inside
`get_or_create_destination_account`, funding the destination with the
configured starting balance, sourced from the funding account's snapshot
and signed with the funding seed. -/
def createAccountEnvelope (env : Env) (t : Transaction) (sourceAcc : Account)
    (seed : String) : Envelope :=
  { sourceAccount := sourceAcc.id, sequence := sourceAcc.sequence + 1,
    baseFee := effBaseFee env,
    operations := [Operation.createAccount t.stellar_account env.startingBalance],
    memo := none, signatures := [seed] }

namespace PendingDeposits

/-- PendingDeposits.get_or_create_destination_account: fetch the destination
account and report whether the asset's trustline is still missing; when the
account does not exist, fund its creation from the distribution account (or
a channel account under multisig), submit the create-account transaction and
re-fetch the fresh account, reporting the trustline as missing. -/
def get_or_create_destination_account (env : Env) (t : Transaction) : GoCRes :=
  match env.getAccount t.stellar_account with
  | .found a => ⟨some (a, is_pending_trust t a), t, Eff.nil, none⟩
  | .horizonError m =>
      ⟨none, t, Eff.nil,
       some (.runtimeError ("Horizon error when loading stellar account: " ++ m))⟩
  | .notFound =>
      let p := fundingChoice env t
      let t1 := p.1
      let seed := p.2.1
      let eff0 := p.2.2
      match get_account_obj env (env.pubOf seed) with
      | .error e => ⟨none, t1, eff0, some e⟩
      | .ok sourceAcc =>
          let envlp := createAccountEnvelope env t sourceAcc seed
          match env.submitTx envlp with
          | .horizonError _ m =>
              ⟨none, t1, Eff.comb eff0 ⟨[], [], [envlp]⟩,
               some (.runtimeError
                 ("Horizon error when submitting create account to horizon: " ++ m))⟩
          | .response _ =>
              match get_account_obj_post env t.stellar_account with
              | .error e => ⟨none, t1, Eff.comb eff0 ⟨[], [], [envlp]⟩, some e⟩
              | .ok a2 => ⟨some (a2, true), t1, Eff.comb eff0 ⟨[], [], [envlp]⟩, none⟩

end PendingDeposits

namespace MultiSigTransactions

/-- MultiSigTransactions.save_as_pending_signatures: build the deposit
envelope from the channel account, sign it with only the channel seed,
persist it with pending_signatures set and status pending_anchor; a failure
resolving the channel account is recorded as a terminal error on the
deposit.  The trailing callback fires in both branches. -/
def save_as_pending_signatures (env : Env) (t : Transaction) : StepRes :=
  let p := get_channel_keypair env t
  let t1 := p.1
  let seed := p.2.1
  let eff0 := p.2.2
  match get_account_obj env (env.pubOf seed) with
  | .error (.runtimeError m) =>
      let t2 := { t1 with status := Status.error, status_message := some m }
      ⟨t2, Eff.comb eff0 ⟨[t2], [t2], []⟩, none⟩
  | .error e => ⟨t1, eff0, some e⟩
  | .ok channelAcc =>
      match PendingDeposits.create_deposit_envelope env t1 channelAcc with
      | .error e => ⟨t1, eff0, some e⟩
      | .ok envlp =>
          let e2 := { envlp with signatures := envlp.signatures ++ [seed] }
          let t2 := { t1 with
            envelope_xdr := some e2,
            pending_signatures := true,
            status := Status.pending_anchor }
          ⟨t2, Eff.comb eff0 ⟨[t2], [t2], []⟩, none⟩

end MultiSigTransactions

/-- The queryset filter of `get_ready_deposits`: deposits awaiting external
funds. -/
def readyFilter (t : Transaction) : Bool :=
  (t.status == Status.pending_user_transfer_start
    || t.status == Status.pending_external)
  && t.kind == TKind.deposit

/-- The fee fill-in applied to an adapter-returned record whose amount_fee
is unset: computed through the registered fee function when the built-in one
is registered, zero when a custom fee function is in effect (the fee
function itself is an integration, modelled from the spec by
`Env.calculateFee`). -/
def feeFill (env : Env) (t : Transaction) : Transaction :=
  if t.amount_fee = none then
    let fee : ℚ :=
      if env.usesBuiltinFee then
        env.calculateFee (t.amount_in.getD 0) t.asset.code
      else 0
    { t with amount_fee := some fee }
  else t

/-- The validation loop of `get_ready_deposits` over the adapter-returned
records: a non-deposit record or a record without amount_in raises
ValueError; a record without amount_fee gets its fee filled in and saved.
Returns the validated list together with the saves performed before any
raise. -/
def getReadyLoop (env : Env) :
    List Transaction → Except PyErr (List Transaction) × List Transaction
  | [] => (.ok [], [])
  | t :: rest =>
      if t.kind ≠ TKind.deposit then
        (.error (.valueError
          "A non-deposit Transaction was returned from poll_pending_deposits()"), [])
      else if t.amount_in = none then
        (.error (.valueError
          "poll_pending_deposits() did not assign a value to the amount_in field"), [])
      else
        let t' := feeFill env t
        let saves := if t.amount_fee = none then [t'] else []
        let r := getReadyLoop env rest
        (r.1.map fun l => t' :: l, saves ++ r.2)

/-- PendingDeposits.get_ready_deposits: select candidate deposits, delegate
to the polling adapter, and validate its output. -/
def PendingDeposits.get_ready_deposits (env : Env) (db : List Transaction) :
    Except PyErr (List Transaction) × List Transaction :=
  getReadyLoop env (env.pollPendingDeposits (db.filter readyFilter))

/-- Replace the database row carrying the saved record's id. -/
def applyTx (db : List Transaction) (s : Transaction) : List Transaction :=
  db.map fun u => if u.id == s.id then s else u

/-- Apply a sequence of persisted snapshots to the database in order. -/
def applySaves (db : List Transaction) (saves : List Transaction) :
    List Transaction :=
  saves.foldl applyTx db

namespace Command

/-- Command.execute_deposit: resolve the destination account (a
RuntimeError becomes a terminal error on the deposit); park the deposit as
pending_trust when the trustline is missing and claimable balances are
unsupported; hand multisig deposits to the multisig coordinator; submit
everything else. -/
def execute_deposit (env : Env) (t : Transaction) : StepRes :=
  let g := PendingDeposits.get_or_create_destination_account env t
  match g.err, g.res with
  | some (.runtimeError m), _ =>
      let t2 := { g.txn with status := Status.error, status_message := some m }
      ⟨t2, Eff.comb g.eff ⟨[t2], [t2], []⟩, none⟩
  | some e, _ => ⟨g.txn, g.eff, some e⟩
  | none, none => ⟨g.txn, g.eff, none⟩
  | none, some pr =>
      let t1 := g.txn
      if pr.2 && !t1.claimable_balance_supported then
        let t2 := { t1 with status := Status.pending_trust }
        ⟨t2, Eff.comb g.eff ⟨[t2], [t2], []⟩, none⟩
      else if MultiSigTransactions.requires_multisig t1 then
        let r := MultiSigTransactions.save_as_pending_signatures env t1
        ⟨r.txn, Eff.comb g.eff r.eff, r.err⟩
      else
        let s := PendingDeposits.submit env t1
        ⟨s.txn, Eff.comb g.eff s.eff, s.err⟩

end Command

/-- Sequential processing of the ready deposits within one pass; an
uncaught exception aborts the remainder of the pass. -/
def runDeposits (env : Env) :
    List Transaction → List Transaction → Eff → PassRes
  | db, [], eff => ⟨db, eff, none⟩
  | db, t :: rest, eff =>
      let r := Command.execute_deposit env t
      let db' := applySaves db r.eff.saves
      let eff' := Eff.comb eff r.eff
      match r.err with
      | some e => ⟨db', eff', some e⟩
      | none => runDeposits env db' rest eff'

/-- The re-scan filter of `execute_deposits`: deposits sitting in
pending_anchor whose multisig signature collection has completed and whose
envelope is persisted. -/
def rescanFilter (t : Transaction) : Bool :=
  t.kind == TKind.deposit && t.status == Status.pending_anchor
  && t.pending_signatures == false && t.envelope_xdr.isSome

/-- Sequential submission of the re-scanned multisig deposits. -/
def runRescan (env : Env) :
    List Transaction → List Transaction → Eff → PassRes
  | db, [], eff => ⟨db, eff, none⟩
  | db, t :: rest, eff =>
      let s := PendingDeposits.submit env t
      let db' := applySaves db s.eff.saves
      let eff' := Eff.comb eff s.eff
      match s.err with
      | some e => ⟨db', eff', some e⟩
      | none => runRescan env db' rest eff'

/-- Command.execute_deposits (the per-cycle driver): pull and validate ready
deposits (an adapter contract violation aborts the pass, with the fee saves
already persisted), execute each, then re-scan deposits whose multisig
co-signature completed externally and submit those too. -/
def Command.execute_deposits (env : Env) (db : List Transaction) : PassRes :=
  let g := PendingDeposits.get_ready_deposits env db
  let db0 := applySaves db g.2
  let eff0 : Eff := ⟨g.2, [], []⟩
  match g.1 with
  | .error _ => ⟨db0, eff0, none⟩
  | .ok ready =>
      let r1 := runDeposits env db0 ready eff0
      match r1.err with
      | some e => ⟨r1.db, r1.eff, some e⟩
      | none => runRescan env r1.db (r1.db.filter rescanFilter) r1.eff

/-- The queryset filter of the trustline poller: deposits parked as
pending_trust. -/
def trustFilter (t : Transaction) : Bool :=
  t.kind == TKind.deposit && t.status == Status.pending_trust

/-- The balance scan of `check_trustlines` for one deposit: on the first
balance line matching the asset, hand the deposit to the multisig
coordinator or submit it; the scan continues over the remaining balance
lines with the updated record. -/
def trustBalanceLoop (env : Env) : Transaction → List Balance → StepRes
  | t, [] => ⟨t, Eff.nil, none⟩
  | t, b :: rest =>
      if b.asset_type == "native" then trustBalanceLoop env t rest
      else if b.asset_code == t.asset.code && b.asset_issuer == t.asset.issuer then
        if MultiSigTransactions.requires_multisig t then
          let r := MultiSigTransactions.save_as_pending_signatures env t
          match r.err with
          | some e => ⟨r.txn, r.eff, some e⟩
          | none =>
              let r2 := trustBalanceLoop env r.txn rest
              ⟨r2.txn, Eff.comb r.eff r2.eff, r2.err⟩
        else
          let s := PendingDeposits.submit env t
          match s.err with
          | some e => ⟨s.txn, s.eff, some e⟩
          | none =>
              let r2 := trustBalanceLoop env s.txn rest
              ⟨r2.txn, Eff.comb s.eff r2.eff, r2.err⟩
      else trustBalanceLoop env t rest

/-- Processing of one pending_trust deposit given its fetched account
record. -/
def trustProcess (env : Env) (t : Transaction) (acc : Account) : StepRes :=
  trustBalanceLoop env t acc.balances

/-- The trustline poller loop: fetch each deposit's destination account,
caching fetches per account address within the pass; a fetch failure
(BaseRequestError) is logged and the deposit skipped for this pass. -/
def runTrust (env : Env) :
    List Transaction → List Transaction → List (String × Account) → Eff → PassRes
  | db, [], _, eff => ⟨db, eff, none⟩
  | db, t :: rest, cache, eff =>
      match cache.lookup t.stellar_account with
      | some a =>
          let r := trustProcess env t a
          let db' := applySaves db r.eff.saves
          let eff' := Eff.comb eff r.eff
          match r.err with
          | some e => ⟨db', eff', some e⟩
          | none => runTrust env db' rest cache eff'
      | none =>
          match env.getAccount t.stellar_account with
          | .found a =>
              let cache' := cache ++ [(t.stellar_account, a)]
              let r := trustProcess env t a
              let db' := applySaves db r.eff.saves
              let eff' := Eff.comb eff r.eff
              match r.err with
              | some e => ⟨db', eff', some e⟩
              | none => runTrust env db' rest cache' eff'
          | _ => runTrust env db rest cache eff

/-- Command.check_trustlines (the trustline poller pass). -/
def Command.check_trustlines (env : Env) (db : List Transaction) : PassRes :=
  runTrust env db (db.filter trustFilter) [] Eff.nil

/-- A persisted snapshot holding a partially-signed envelope awaiting
co-signature: pending_signatures set with an envelope present. -/
def flaggedB (s : Transaction) : Bool :=
  s.pending_signatures && s.envelope_xdr.isSome

/-- Scan of a persisted-snapshot history: true when every pending_stellar
snapshot is strictly preceded by a snapshot with pending_signatures set and
an envelope present (`seen` records whether such a snapshot was already
passed). -/
def histOk (seen : Bool) : List Transaction → Bool
  | [] => true
  | s :: rest =>
      if s.status == Status.pending_stellar && !seen then false
      else histOk (seen || flaggedB s) rest

/-- One observable step a deposit record can undergo, together with the
persisted snapshots it emits.  The first four constructors are the
operations of the per-cycle driver and the trustline poller, each under an
arbitrary environment; `cosign` is modelled from the spec: the out-of-band
co-signing process clears pending_signatures once the remaining signatures
have been collected (spec §4.2), leaving the rest of the record intact. -/
inductive CoreStep : Transaction → List Transaction → Transaction → Prop where
  | exec (env : Env) (t : Transaction) :
      CoreStep t (Command.execute_deposit env t).eff.saves
        (Command.execute_deposit env t).txn
  | feeSet (t : Transaction) (q : ℚ) :
      CoreStep t [{ t with amount_fee := some q }] { t with amount_fee := some q }
  | rescan (env : Env) (t : Transaction) (h : rescanFilter t = true) :
      CoreStep t (PendingDeposits.submit env t).eff.saves
        (PendingDeposits.submit env t).txn
  | trustline (env : Env) (t : Transaction) (a : Account)
      (h : trustFilter t = true) :
      CoreStep t (trustProcess env t a).eff.saves (trustProcess env t a).txn
  | cosign (t : Transaction) (h : t.pending_signatures = true) :
      CoreStep t [] { t with pending_signatures := false }

/-- Reachability through driver steps, accumulating the history of
persisted snapshots. -/
inductive Reach (t0 : Transaction) : Transaction → List Transaction → Prop where
  | refl : Reach t0 t0 []
  | step {t : Transaction} {hist snaps : List Transaction} {t' : Transaction} :
      Reach t0 t hist → CoreStep t snaps t' → Reach t0 t' (hist ++ snaps)

/-- All database rows carrying a given id equal the given record. -/
def RowsEq (db : List Transaction) (i : Nat) (v : Transaction) : Prop :=
  ∀ u ∈ db, u.id = i → u = v

/-- Applying an operation's persisted snapshots moves the rows carrying the
record's id from the pre-state record to the operation's final record. -/
def RowTrack (i : Nat) (v0 : Transaction) (saves : List Transaction)
    (v1 : Transaction) : Prop :=
  ∀ db, RowsEq db i v0 → RowsEq (applySaves db saves) i v1

/-- Statuses a multisig deposit's snapshot can carry after a driver step:
the incoming status, or error, pending_trust or pending_anchor (never
pending_stellar, which only `submit` writes). -/
def StIn (t s : Transaction) : Prop :=
  s.status = t.status ∨ s.status = Status.error
  ∨ s.status = Status.pending_trust ∨ s.status = Status.pending_anchor

/-- Shape of a driver step on a multisig deposit: no snapshot moves to
pending_stellar, and the final record either keeps the envelope and
pending-signatures flag or a flagged partially-signed snapshot was
persisted along the way. -/
def StepPres (t : Transaction) (saves : List Transaction)
    (txn : Transaction) : Prop :=
  (∀ s ∈ saves, StIn t s) ∧ StIn t txn
  ∧ ((txn.envelope_xdr = t.envelope_xdr
        ∧ txn.pending_signatures = t.pending_signatures)
    ∨ ∃ s ∈ saves, flaggedB s = true)

/-- Two records agreeing on the fields the drivers branch on: id, asset,
status, envelope, pending-signatures flag and claimable-balance support. -/
def SameCore (a b : Transaction) : Prop :=
  a.id = b.id ∧ a.asset = b.asset ∧ a.status = b.status
  ∧ a.envelope_xdr = b.envelope_xdr ∧ a.pending_signatures = b.pending_signatures
  ∧ a.claimable_balance_supported = b.claimable_balance_supported

/-- Every cached account record is the ledger's fetch result for its
address. -/
def CacheOk (env : Env) (cache : List (String × Account)) : Prop :=
  ∀ p ∈ cache, env.getAccount p.1 = FetchRes.found p.2

/-- Test fixture: asset configuration of a single-signature distribution
account (master signer weight meeting the medium threshold). -/
def wAsset : AssetInfo :=
  { code := "USD", issuer := "GISSUER", distribution_account := "GDIST",
    distribution_seed := "SDIST", significant_decimals := 2,
    distribution_account_master_signer := some ⟨10⟩,
    distribution_account_thresholds := ⟨10⟩ }

/-- Test fixture: the same asset with a master signer below the medium
threshold, so the distribution account requires multisig. -/
def wAssetMS : AssetInfo :=
  { wAsset with distribution_account_master_signer := some ⟨5⟩ }

/-- Test fixture: a fresh deposit record. -/
def wTxn : Transaction :=
  { id := 1, kind := TKind.deposit, status := Status.pending_user_transfer_start,
    status_message := none, status_eta := none,
    amount_in := some 100, amount_fee := some 1, amount_out := none,
    stellar_account := "GDEST", memo := none, memo_type := "text",
    asset := wAsset, envelope_xdr := none, paging_token := none,
    stellar_transaction_id := none, claimable_balance_supported := false,
    claimable_balance_id := none, pending_signatures := false,
    channel_account := none, channel_seed := none, completed_at := none }

/-- Test fixture: a balance line holding the fixture asset's trustline. -/
def wBalUSD : Balance := ⟨"credit_alphanum4", "USD", "GISSUER"⟩

/-- Test fixture: the destination account with the trustline established. -/
def wAccDest : Account := ⟨"GDEST", 7, [wBalUSD]⟩

/-- Test fixture: the distribution account snapshot. -/
def wAccDist : Account := ⟨"GDIST", 3, []⟩

/-- Test fixture: a stored deposit envelope. -/
def wEnvlp : Envelope :=
  { sourceAccount := "GDIST", sequence := 4, baseFee := 100,
    operations := [Operation.payment "GDEST" "USD" "GISSUER" 99 "GDIST"],
    memo := none, signatures := ["SDIST"] }

/-- Test fixture: a successful Horizon submission response. -/
def wResp : HorizonResponse :=
  { successful := true, result_xdr := ⟨[]⟩, result_xdr_str := "rx",
    envelope_xdr := wEnvlp, id := "txhash", paging_token := "pt" }

/-- Test fixture: the collaborator environment, with the destination and
distribution accounts on the ledger, submissions accepted, an empty polling
adapter and the built-in fee function returning 1. -/
def wEnv : Env :=
  { getAccount := fun s =>
      if s = "GDEST" then .found wAccDest
      else if s = "GDIST" then .found wAccDist
      else .notFound,
    getAccountPost := fun s => if s = "GDEST" then .found wAccDest else .notFound,
    submitTx := fun _ => .response wResp,
    fetchBaseFee := 100, maxTxFeeStroops := none,
    startingBalance := "2.01",
    pubOf := fun s => if s = "SDIST" then "GDIST" else "GCHAN",
    createChannelAccount := fun _ => ("GCHAN", "SCHAN"),
    pollPendingDeposits := fun _ => [],
    usesBuiltinFee := true, calculateFee := fun _ _ => 1,
    now := 1000 }

/-- Test fixture: the environment with Horizon rejecting submissions. -/
def wEnvFail : Env :=
  { wEnv with submitTx := fun _ => .horizonError "BadRequestError" "tx failed" }

/-- Test fixture: the environment with the destination account absent from
the ledger (present again on the post-creation fetch). -/
def wEnvNoDest : Env :=
  { wEnv with getAccount := fun s =>
      if s = "GDIST" then .found wAccDist else .notFound }

/-- Test fixture: the deposit with a stored envelope, parked in
pending_anchor with signature collection finished. -/
def wTxnStored : Transaction :=
  { wTxn with status := Status.pending_anchor, envelope_xdr := some wEnvlp }

/-- Test fixture: a completed deposit occupying another database row. -/
def wTxnDone : Transaction :=
  { wTxn with
    id := 2, status := Status.completed, amount_out := some 99,
    completed_at := some 900 }

/-- Test fixture: a record violating the polling adapter's contract. -/
def wTxnBad : Transaction := { wTxn with kind := TKind.withdrawal }

/-- Test fixture: the environment whose polling adapter returns the
contract-violating record. -/
def wEnvBadPoll : Env :=
  { wEnv with pollPendingDeposits := fun _ => [wTxnBad] }

/-- Test fixture: the multisig variant of the fixture deposit. -/
def wTxnMS : Transaction := { wTxn with asset := wAssetMS }

/-- Test fixture: a pending_trust deposit whose destination account is
missing from the ledger. -/
def wTxnTrustFail : Transaction :=
  { wTxn with
    id := 3, status := Status.pending_trust,
    stellar_account := "GMISSING" }

/-- Test fixture: a pending_trust deposit whose destination account is on
the ledger with the trustline established. -/
def wTxnTrustOk : Transaction :=
  { wTxn with id := 4, status := Status.pending_trust }

/-- Test fixture: a decoded claimable balance id payload. -/
def wBid : BalanceID := ⟨[1, 2]⟩

/-- Test fixture: a Horizon response whose decoded result holds a
createClaimableBalanceResult between two other operation results. -/
def wRespCCB : HorizonResponse :=
  { wResp with result_xdr := ⟨[⟨.otherResult⟩,
      ⟨.createClaimableBalanceResult wBid⟩, ⟨.otherResult⟩]⟩ }

/-- A string with a non-empty left part is non-empty. -/
theorem append_ne_empty_of_left (a b : String) (h : 0 < a.length) :
    a ++ b ≠ "" := by
  intro hc
  have hl := congrArg String.length hc
  simp only [String.length_append] at hl
  have : String.length "" = 0 := rfl
  omega

/-- A string containing a ": " separator is non-empty. -/
theorem mid_sep_ne_empty (a b : String) : a ++ ": " ++ b ≠ "" := by
  intro hc
  have hl := congrArg String.length hc
  simp only [String.length_append] at hl
  have h2 : String.length ": " = 2 := rfl
  have h0 : String.length "" = 0 := rfl
  omega

/-- An error returned by the account fetch helper is a RuntimeError or a
Horizon error, never a ValueError. -/
theorem get_account_obj_err_kind (env : Env) (p : String) (e : PyErr)
    (h : get_account_obj env p = .error e) :
    (∃ m, e = .runtimeError m) ∨ (∃ m, e = .horizonError m) := by
  unfold get_account_obj at h
  split at h
  · simp at h
  · injection h with h1
    exact Or.inl ⟨_, h1.symm⟩
  · injection h with h1
    exact Or.inr ⟨_, h1.symm⟩

/-- An error raised while building a deposit envelope is a RuntimeError or a
Horizon error. -/
theorem create_deposit_envelope_err_kind (env : Env) (t : Transaction)
    (src : Account) (e : PyErr)
    (h : PendingDeposits.create_deposit_envelope env t src = .error e) :
    (∃ m, e = .runtimeError m) ∨ (∃ m, e = .horizonError m) := by
  simp only [PendingDeposits.create_deposit_envelope] at h
  split at h
  next e2 heq =>
    injection h with h1
    exact h1 ▸ get_account_obj_err_kind env _ e2 heq
  next => simp at h

/-- An error raised while resolving the envelope in `submit` is a
RuntimeError or a Horizon error. -/
theorem envelopeOf_err_kind (env : Env) (t : Transaction) (e : PyErr)
    (h : PendingDeposits.envelopeOf env t = .error e) :
    (∃ m, e = .runtimeError m) ∨ (∃ m, e = .horizonError m) := by
  unfold PendingDeposits.envelopeOf at h
  split at h
  next => simp at h
  next =>
    split at h
    next e2 heq =>
      injection h with h1
      exact h1 ▸ get_account_obj_err_kind env _ e2 heq
    next acc heq =>
      split at h
      next e2 heq2 =>
        injection h with h1
        exact h1 ▸ create_deposit_envelope_err_kind env t acc e2 heq2
      next => simp at h

/-- C7: `submit` fails with an invalid-state ValueError exactly when the
deposit's status is outside {pending_user_transfer_start, pending_external,
pending_anchor, pending_trust}; when it fails this way the record is left
unchanged and no save, callback or submission is performed. -/
theorem C7_submit_invalid_state (env : Env) (t : Transaction) :
    ((∃ m, (PendingDeposits.submit env t).err = some (.valueError m)) ↔
      t.status ∉ PendingDeposits.validStatuses)
    ∧ (t.status ∉ PendingDeposits.validStatuses →
        (PendingDeposits.submit env t).txn = t
        ∧ (PendingDeposits.submit env t).eff = Eff.nil) := by
  by_cases hv : t.status ∈ PendingDeposits.validStatuses
  · refine ⟨⟨fun hex => ?_, fun hf => absurd hv hf⟩, fun hf => absurd hv hf⟩
    obtain ⟨m, hm⟩ := hex
    exfalso
    simp only [PendingDeposits.submit] at hm
    rw [if_neg (by simp [hv])] at hm
    split at hm
    next e2 heq =>
      simp only [Option.some.injEq] at hm
      rcases envelopeOf_err_kind env _ e2 heq with ⟨m2, hk⟩ | ⟨m2, hk⟩ <;>
        rw [hk] at hm <;> exact absurd hm (by simp)
    next envF heq =>
      split at hm
      next => simp at hm
      next r hr =>
        split at hm <;> simp at hm
  · refine ⟨by simp [PendingDeposits.submit, hv], fun _ => ?_⟩
    exact ⟨by simp [PendingDeposits.submit, hv], by simp [PendingDeposits.submit, hv]⟩

/-- C2: when the ledger submission step of `submit` fails (the Horizon call
raises, or the response reports successful=false), the deposit moves to
status error with a non-empty status message, `submit` returns failure, and
amount_out and completed_at are unchanged by the call. -/
theorem C2_submission_failure (env : Env) (t : Transaction) (e : Envelope)
    (hv : t.status ∈ PendingDeposits.validStatuses)
    (he : PendingDeposits.envelopeOf env
      { t with status := Status.pending_anchor, status_eta := some 5 } = .ok e)
    (hf : (∃ cls m, env.submitTx e = .horizonError cls m) ∨
          (∃ r, env.submitTx e = .response r ∧ r.successful = false)) :
    (PendingDeposits.submit env t).ok = false
    ∧ (PendingDeposits.submit env t).err = none
    ∧ (PendingDeposits.submit env t).txn.status = Status.error
    ∧ (∃ m, (PendingDeposits.submit env t).txn.status_message = some m ∧ m ≠ "")
    ∧ (PendingDeposits.submit env t).txn.amount_out = t.amount_out
    ∧ (PendingDeposits.submit env t).txn.completed_at = t.completed_at := by
  have hcond : ¬((!PendingDeposits.validStatuses.contains t.status) = true) := by
    simp [hv]
  rcases hf with ⟨cls, m, hsub⟩ | ⟨r, hsub, hsucc⟩
  · simp only [PendingDeposits.submit, if_neg hcond, he, hsub,
      PendingDeposits.handle_error]
    exact ⟨by trivial, by trivial, by trivial,
      ⟨cls ++ ": " ++ m, by trivial, mid_sep_ne_empty cls m⟩, by trivial, by trivial⟩
  · simp only [PendingDeposits.submit, if_neg hcond, he, hsub, hsucc,
      Bool.not_false, eq_self_iff_true, if_true, PendingDeposits.handle_error]
    exact ⟨by trivial, by trivial, by trivial,
      ⟨"Stellar transaction failed when submitted to horizon: " ++ r.result_xdr_str,
        by trivial, append_ne_empty_of_left _ _ (by decide)⟩, by trivial, by trivial⟩

/-- C3: the envelope built by `create_deposit_envelope` carries a
create-claimable-balance operation naming the destination as sole claimant,
sourced from the distribution account, exactly when the deposit supports
claimable balances and the destination does not yet accept the asset, and a
direct payment operation to the destination otherwise; in both cases the
operation amount is `round(amount_in - amount_fee, significant_decimals)`. -/
theorem C3_deposit_envelope_operation (env : Env) (t : Transaction)
    (src destAcc : Account) (a f : ℚ)
    (hacc : env.getAccount t.stellar_account = .found destAcc)
    (hin : t.amount_in = some a) (hfee : t.amount_fee = some f) :
    PendingDeposits.create_deposit_envelope env t src = .ok
      { sourceAccount := src.id, sequence := src.sequence + 1,
        baseFee := effBaseFee env,
        operations := [if t.claimable_balance_supported && is_pending_trust t destAcc
          then Operation.createClaimableBalance [t.stellar_account] t.asset.code
            t.asset.issuer (roundDec (a - f) t.asset.significant_decimals)
            t.asset.distribution_account
          else Operation.payment t.stellar_account t.asset.code t.asset.issuer
            (roundDec (a - f) t.asset.significant_decimals)
            t.asset.distribution_account],
        memo := memoOf t, signatures := [] } := by
  have hget : get_account_obj env t.stellar_account = .ok destAcc := by
    unfold get_account_obj
    rw [hacc]
  simp only [PendingDeposits.create_deposit_envelope, hget, hin, hfee,
    Option.getD_some]
  cases h : (t.claimable_balance_supported && is_pending_trust t destAcc) <;>
    simp [h]

/-- The base64 alphabet decodes its own characters. -/
theorem b64CharVal_b64Char_fin : ∀ n : Fin 64, b64CharVal (b64Char n.val) = n.val := by
  decide

/-- The base64 alphabet decodes its own characters (Nat form). -/
theorem b64CharVal_b64Char (n : Nat) (h : n < 64) : b64CharVal (b64Char n) = n :=
  b64CharVal_b64Char_fin ⟨n, h⟩

/-- No base64 alphabet character is the padding character. -/
theorem b64Char_ne_pad_fin : ∀ n : Fin 64, b64Char n.val ≠ '=' := by decide

/-- No base64 alphabet character is the padding character (Nat form). -/
theorem b64Char_ne_pad (n : Nat) (h : n < 64) : b64Char n ≠ '=' :=
  b64Char_ne_pad_fin ⟨n, h⟩

/-- Base64 decoding inverts base64 encoding. -/
theorem b64_decode_encode : ∀ l : List (Fin 256), b64DecodeChars (b64EncodeChars l) = l
  | [] => rfl
  | [a] => by
      have ha := a.isLt
      simp only [b64EncodeChars, b64DecodeChars, if_pos rfl]
      rw [b64CharVal_b64Char _ (by omega), b64CharVal_b64Char _ (by omega)]
      have : a.val / 4 * 4 + a.val % 4 * 16 / 16 = a.val := by omega
      rw [this]
      simp [byteOf, Fin.ext_iff, Nat.mod_eq_of_lt ha]
  | [a, b] => by
      have ha := a.isLt
      have hb := b.isLt
      simp only [b64EncodeChars, b64DecodeChars,
        if_neg (b64Char_ne_pad (b.val % 16 * 4) (by omega)), if_pos rfl]
      rw [b64CharVal_b64Char _ (by omega), b64CharVal_b64Char _ (by omega),
        b64CharVal_b64Char _ (by omega)]
      have h1 : a.val / 4 * 4 + (a.val % 4 * 16 + b.val / 16) / 16 = a.val := by omega
      have h2 : (a.val % 4 * 16 + b.val / 16) % 16 * 16 + b.val % 16 * 4 / 4 = b.val := by
        omega
      rw [h1, h2]
      simp [byteOf, Fin.ext_iff, Nat.mod_eq_of_lt ha, Nat.mod_eq_of_lt hb]
  | a :: b :: c :: l => by
      have ha := a.isLt
      have hb := b.isLt
      have hc := c.isLt
      have ih := b64_decode_encode l
      simp only [b64EncodeChars] at ih ⊢
      simp only [b64DecodeChars,
        if_neg (b64Char_ne_pad (b.val % 16 * 4 + c.val / 64) (by omega)),
        if_neg (b64Char_ne_pad (c.val % 64) (by omega))]
      rw [b64CharVal_b64Char _ (by omega), b64CharVal_b64Char _ (by omega),
        b64CharVal_b64Char _ (by omega), b64CharVal_b64Char _ (by omega)]
      have h1 : a.val / 4 * 4 + (a.val % 4 * 16 + b.val / 16) / 16 = a.val := by omega
      have h2 : (a.val % 4 * 16 + b.val / 16) % 16 * 16
          + (b.val % 16 * 4 + c.val / 64) / 4 = b.val := by omega
      have h3 : (b.val % 16 * 4 + c.val / 64) % 4 * 64 + c.val % 64 = c.val := by omega
      rw [h1, h2, h3, ih]
      simp [byteOf, Fin.ext_iff, Nat.mod_eq_of_lt ha, Nat.mod_eq_of_lt hb,
        Nat.mod_eq_of_lt hc]

/-- The hex digit table decodes its own characters. -/
theorem hexVal_hexDigit_fin : ∀ n : Fin 16, hexVal (hexDigit n.val) = n.val := by decide

/-- The hex digit table decodes its own characters (Nat form). -/
theorem hexVal_hexDigit (n : Nat) (h : n < 16) : hexVal (hexDigit n) = n :=
  hexVal_hexDigit_fin ⟨n, h⟩

/-- Hex decoding inverts hex encoding (character-list form). -/
theorem hex_decode_encode :
    ∀ l : List (Fin 256),
      hexDecodeChars (l.flatMap fun b => [hexDigit (b.val / 16), hexDigit (b.val % 16)])
        = some l
  | [] => rfl
  | b :: l => by
      have hb := b.isLt
      have ih := hex_decode_encode l
      have hshape :
          ((b :: l).flatMap fun x => [hexDigit (x.val / 16), hexDigit (x.val % 16)])
            = hexDigit (b.val / 16) :: hexDigit (b.val % 16) ::
              (l.flatMap fun x => [hexDigit (x.val / 16), hexDigit (x.val % 16)]) := by
        simp
      rw [hshape]
      simp only [hexDecodeChars]
      rw [hexVal_hexDigit _ (by omega), hexVal_hexDigit _ (by omega),
        if_pos ⟨by omega, by omega⟩, ih]
      have h1 : b.val / 16 * 16 + b.val % 16 = b.val := by omega
      simp [h1, byteOf, Fin.ext_iff, Nat.mod_eq_of_lt hb]

/-- Hex decoding inverts hex encoding. -/
theorem hexDecode_hexOfBytes (l : List (Fin 256)) :
    hexDecode (hexOfBytes l) = some l :=
  hex_decode_encode l

/-- Hex encoding of a non-empty byte string is a non-empty string. -/
theorem hexOfBytes_ne_empty (b : Fin 256) (l : List (Fin 256)) :
    hexOfBytes (b :: l) ≠ "" := by
  intro h
  have := congrArg String.data h
  simp [hexOfBytes] at this

/-- The scan of `get_balance_id` yields nothing exactly when the accumulator
is empty and no createClaimableBalanceResult occurs in the remaining
operation results. -/
theorem gbiFold_none_iff (l : List OpResult) (acc : Option String) :
    l.foldl (fun acc op =>
      match op.tr with
      | .createClaimableBalanceResult bid =>
          some (hexOfBytes (b64DecodeStr bid.to_xdr))
      | .otherResult => acc) acc = none
    ↔ acc = none ∧ l.all (fun op => !isCCB op) = true := by
  induction l generalizing acc with
  | nil => simp
  | cons op rest ih =>
      simp only [List.foldl_cons, List.all_cons, Bool.and_eq_true]
      rw [ih]
      rcases op with ⟨tr⟩
      cases tr <;> simp [isCCB]

/-- A value produced by the scan of `get_balance_id` is either the decoded
hex form of some createClaimableBalanceResult balance id in the list, or the
incoming accumulator. -/
theorem gbiFold_some (l : List OpResult) :
    ∀ (acc : Option String) (h : String),
    l.foldl (fun acc op =>
      match op.tr with
      | .createClaimableBalanceResult bid =>
          some (hexOfBytes (b64DecodeStr bid.to_xdr))
      | .otherResult => acc) acc = some h →
    (∃ bid, OpResult.mk (OpTr.createClaimableBalanceResult bid) ∈ l ∧
       h = hexOfBytes (b64DecodeStr bid.to_xdr)) ∨ acc = some h := by
  induction l with
  | nil => exact fun acc h hf => Or.inr hf
  | cons op rest ih =>
      intro acc h hf
      simp only [List.foldl_cons] at hf
      rcases ih _ h hf with ⟨bid, hm, he⟩ | hacc
      · exact Or.inl ⟨bid, List.mem_cons_of_mem _ hm, he⟩
      · rcases op with ⟨tr⟩
        cases tr with
        | createClaimableBalanceResult bid =>
            simp only [Option.some.injEq] at hacc
            exact Or.inl ⟨bid, List.mem_cons_self _ _, hacc.symm⟩
        | otherResult => exact Or.inr hacc

/-- The scan of `get_balance_id` leaves the accumulator unchanged over a
stretch of operation results containing no createClaimableBalanceResult. -/
theorem gbiFold_no_ccb (l : List OpResult) (acc : Option String)
    (h : ∀ op ∈ l, isCCB op = false) :
    l.foldl (fun acc op =>
      match op.tr with
      | .createClaimableBalanceResult bid =>
          some (hexOfBytes (b64DecodeStr bid.to_xdr))
      | .otherResult => acc) acc = acc := by
  induction l generalizing acc with
  | nil => rfl
  | cons op rest ih =>
      have hop := h op (List.mem_cons_self _ _)
      rcases op with ⟨tr⟩
      cases tr with
      | createClaimableBalanceResult bid => simp [isCCB] at hop
      | otherResult =>
          simp only [List.foldl_cons]
          exact ih _ fun op hm => h op (List.mem_cons_of_mem _ hm)

/-- Base64 decoding of a balance id's XDR serialization recovers its
bytes. -/
theorem b64DecodeStr_to_xdr (b : BalanceID) :
    b64DecodeStr b.to_xdr = b.xdrBytes := by
  show b64DecodeChars (String.data ⟨b64EncodeChars b.xdrBytes⟩) = b.xdrBytes
  exact b64_decode_encode b.xdrBytes

/-- C9: `get_balance_id` returns a decodable non-empty hex string exactly
when the decoded transaction result contains a create-claimable-balance
operation result (and None otherwise), and a balance identifier encoded
through the ledger result decodes back to the original identifier. -/
theorem C9_get_balance_id (r : HorizonResponse) (b : BalanceID)
    (pre suf : List OpResult) :
    (PendingDeposits.get_balance_id r = none ↔
      r.result_xdr.results.all (fun op => !isCCB op) = true)
    ∧ (∀ h, PendingDeposits.get_balance_id r = some h →
        h ≠ "" ∧ ∃ bs, hexDecode h = some bs)
    ∧ (r.result_xdr.results
          = pre ++ OpResult.mk (OpTr.createClaimableBalanceResult b) :: suf →
        (∀ op ∈ suf, isCCB op = false) →
        PendingDeposits.get_balance_id r = some (hexOfBytes b.xdrBytes)
        ∧ (hexDecode (hexOfBytes b.xdrBytes)).bind decodeBalanceID = some b) := by
  refine ⟨?_, ?_, ?_⟩
  · rw [PendingDeposits.get_balance_id, gbiFold_none_iff]
    simp
  · intro h hf
    rcases gbiFold_some _ _ _ hf with ⟨bid, _, he⟩ | habs
    · rw [he, b64DecodeStr_to_xdr, BalanceID.xdrBytes]
      exact ⟨hexOfBytes_ne_empty _ _, _, hexDecode_hexOfBytes _⟩
    · exact absurd habs (by simp)
  · intro hres hsuf
    constructor
    · rw [PendingDeposits.get_balance_id, hres, List.foldl_append,
        List.foldl_cons, gbiFold_no_ccb _ _ hsuf]
      show some (hexOfBytes (b64DecodeStr b.to_xdr)) = some (hexOfBytes b.xdrBytes)
      rw [b64DecodeStr_to_xdr]
    · rw [hexDecode_hexOfBytes]
      show decodeBalanceID ((0 : Fin 256) :: 0 :: 0 :: 0 :: b.v0) = some b
      rw [decodeBalanceID, if_pos ⟨rfl, rfl, rfl, rfl⟩]

/-- C6: when the destination account does not exist, the resolver builds and
submits a single-operation create-account transaction funding the
destination with the configured starting balance, sourced from and signed by
the channel account's keypair under multisig and the distribution account's
keypair otherwise; on success it re-fetches the new account's snapshot and
reports the trustline as awaited. -/
theorem C6_fund_missing_destination (env : Env) (t : Transaction)
    (srcAcc a2 : Account) (r : HorizonResponse)
    (hnf : env.getAccount t.stellar_account = .notFound)
    (hsrc : env.getAccount (env.pubOf (fundingChoice env t).2.1) = .found srcAcc)
    (hsub : env.submitTx
      (createAccountEnvelope env t srcAcc (fundingChoice env t).2.1) = .response r)
    (hpost : env.getAccountPost t.stellar_account = .found a2) :
    (PendingDeposits.get_or_create_destination_account env t).res = some (a2, true)
    ∧ (PendingDeposits.get_or_create_destination_account env t).err = none
    ∧ (PendingDeposits.get_or_create_destination_account env t).eff.submissions
        = [createAccountEnvelope env t srcAcc (fundingChoice env t).2.1]
    ∧ (createAccountEnvelope env t srcAcc (fundingChoice env t).2.1).operations
        = [Operation.createAccount t.stellar_account env.startingBalance]
    ∧ (createAccountEnvelope env t srcAcc (fundingChoice env t).2.1).signatures
        = [(fundingChoice env t).2.1]
    ∧ (createAccountEnvelope env t srcAcc
        (fundingChoice env t).2.1).sourceAccount = srcAcc.id
    ∧ (fundingChoice env t).2.1
        = (if MultiSigTransactions.requires_multisig t then
            (MultiSigTransactions.get_channel_keypair env t).2.1
           else t.asset.distribution_seed) := by
  have hget : get_account_obj env (env.pubOf (fundingChoice env t).2.1)
      = .ok srcAcc := by
    unfold get_account_obj
    rw [hsrc]
  have hgetp : get_account_obj_post env t.stellar_account = .ok a2 := by
    unfold get_account_obj_post
    rw [hpost]
  have hfc : (fundingChoice env t).2.2.submissions = [] := by
    rw [fundingChoice]
    split
    · rw [MultiSigTransactions.get_channel_keypair]
      split <;> rfl
    · rfl
  simp only [PendingDeposits.get_or_create_destination_account, hnf, hget, hsub,
    hgetp]
  refine ⟨by trivial, by trivial, ?_, by trivial, by trivial, by trivial, ?_⟩
  · simp [Eff.comb, hfc]
  · cases h : MultiSigTransactions.requires_multisig t <;> simp [fundingChoice, h]

/-- A contract-violating record anywhere in the adapter output makes the
validation loop raise a ValueError. -/
theorem getReadyLoop_error (env : Env) :
    ∀ l : List Transaction,
      (∃ t ∈ l, t.kind ≠ TKind.deposit ∨ t.amount_in = none) →
      ∃ m, (getReadyLoop env l).1 = .error (.valueError m)
  | [], h => absurd h (by simp)
  | t :: rest, h => by
      by_cases hk : t.kind ≠ TKind.deposit
      · exact ⟨"A non-deposit Transaction was returned from poll_pending_deposits()",
          by simp only [getReadyLoop, if_pos hk]⟩
      · by_cases hi : t.amount_in = none
        · refine ⟨"poll_pending_deposits() did not assign a value to the amount_in field", ?_⟩
          simp only [getReadyLoop, if_neg hk, if_pos hi]
        · have hrest : ∃ u ∈ rest, u.kind ≠ TKind.deposit ∨ u.amount_in = none := by
            rcases h with ⟨u, hu, hbad⟩
            rcases List.mem_cons.mp hu with rfl | hm
            · rcases hbad with hb | hb
              · exact absurd hb hk
              · exact absurd hb hi
            · exact ⟨u, hm, hbad⟩
          obtain ⟨m, hm⟩ := getReadyLoop_error env rest hrest
          refine ⟨m, ?_⟩
          simp only [getReadyLoop, if_neg hk, if_neg hi, hm]
          rfl

/-- When every adapter-returned record is a deposit with amount_in set, the
validation loop returns them all with fees filled in. -/
theorem getReadyLoop_ok (env : Env) :
    ∀ l : List Transaction,
      (∀ t ∈ l, t.kind = TKind.deposit ∧ t.amount_in ≠ none) →
      (getReadyLoop env l).1 = .ok (l.map (feeFill env))
  | [], _ => rfl
  | t :: rest, h => by
      obtain ⟨hk, hi⟩ := h t (List.mem_cons_self _ _)
      have ih := getReadyLoop_ok env rest fun u hm => h u (List.mem_cons_of_mem _ hm)
      simp only [getReadyLoop,
        if_neg (show ¬t.kind ≠ TKind.deposit from fun hc => hc hk),
        if_neg hi, ih, List.map_cons]
      rfl

/-- C8: `get_ready_deposits` validates the polling adapter's output
strictly: any returned record that is not a deposit or lacks amount_in
raises a ValueError out of the validation, and the pass performs no deposit
execution beyond the already-persisted fee fills; when all records conform,
the validated list is returned with amount_fee filled in through the
configured fee function (zero under a custom fee function). -/
theorem C8_ready_deposit_validation (env : Env) (db : List Transaction) :
    ((∃ t ∈ env.pollPendingDeposits (db.filter readyFilter),
        t.kind ≠ TKind.deposit ∨ t.amount_in = none) →
      (∃ m, (PendingDeposits.get_ready_deposits env db).1
          = .error (.valueError m))
      ∧ (Command.execute_deposits env db).eff.submissions = []
      ∧ (Command.execute_deposits env db).db
          = applySaves db (PendingDeposits.get_ready_deposits env db).2
      ∧ (Command.execute_deposits env db).err = none)
    ∧ ((∀ t ∈ env.pollPendingDeposits (db.filter readyFilter),
          t.kind = TKind.deposit ∧ t.amount_in ≠ none) →
        (PendingDeposits.get_ready_deposits env db).1
          = .ok ((env.pollPendingDeposits (db.filter readyFilter)).map
              (feeFill env))) := by
  constructor
  · intro hbad
    obtain ⟨m, hm⟩ := getReadyLoop_error env _ hbad
    have hm' : (PendingDeposits.get_ready_deposits env db).1
        = .error (.valueError m) := hm
    refine ⟨⟨m, hm'⟩, ?_, ?_, ?_⟩ <;>
      simp only [Command.execute_deposits, hm']
  · intro hgood
    exact getReadyLoop_ok env _ hgood

/-- After persisting a record, every row carrying its id equals it. -/
theorem rowsEq_applyTx_self (db : List Transaction) (s : Transaction) :
    RowsEq (applyTx db s) s.id s := by
  intro u hu hid
  rcases List.mem_map.mp hu with ⟨v, _, hv⟩
  by_cases h : v.id = s.id
  · rw [← hv]
    simp [h]
  · rw [← hv] at hid
    simp only [beq_iff_eq, if_neg h] at hid
    exact absurd hid h

/-- Persisting a record with a different id does not disturb the rows
carrying the tracked id. -/
theorem applyTx_pres (db : List Transaction) (s : Transaction) (i : Nat)
    (v : Transaction) (hne : s.id ≠ i) (h : RowsEq db i v) :
    RowsEq (applyTx db s) i v := by
  intro u hu hid
  rcases List.mem_map.mp hu with ⟨w, hw, hwu⟩
  by_cases hc : w.id = s.id
  · rw [← hwu] at hid
    simp only [beq_iff_eq, if_pos hc] at hid
    exact absurd hid hne
  · rw [← hwu] at hid ⊢
    simp only [beq_iff_eq, if_neg hc] at hid ⊢
    exact h w hw hid

/-- Persisting records with different ids does not disturb the rows
carrying the tracked id. -/
theorem applySaves_pres (saves : List Transaction) (i : Nat) (v : Transaction) :
    ∀ db, (∀ s ∈ saves, s.id ≠ i) → RowsEq db i v →
      RowsEq (applySaves db saves) i v := by
  induction saves with
  | nil => exact fun db _ h => h
  | cons s rest ih =>
      intro db hs h
      exact ih _ (fun x hx => hs x (List.mem_cons_of_mem _ hx))
        (applyTx_pres db s i v (hs s (List.mem_cons_self _ _)) h)

/-- Row ids are not disturbed by persisting a record. -/
theorem applyTx_map_id (db : List Transaction) (s : Transaction) :
    (applyTx db s).map Transaction.id = db.map Transaction.id := by
  simp only [applyTx, List.map_map]
  apply List.map_congr_left
  intro u _
  by_cases h : u.id = s.id <;> simp [h]

/-- Row ids are not disturbed by persisting snapshots. -/
theorem applySaves_map_id (saves : List Transaction) :
    ∀ db, (applySaves db saves).map Transaction.id = db.map Transaction.id := by
  induction saves with
  | nil => exact fun _ => rfl
  | cons s rest ih =>
      intro db
      rw [applySaves, List.foldl_cons]
      rw [show (List.foldl applyTx (applyTx db s) rest)
        = applySaves (applyTx db s) rest from rfl, ih, applyTx_map_id]

/-- The trivial row-tracking step: no snapshot persisted, record unchanged. -/
theorem rowTrack_nil (i : Nat) (v : Transaction) : RowTrack i v [] v :=
  fun _ h => h

/-- A snapshot list ending with the final record tracks rows to it. -/
theorem rowTrack_snoc (i : Nat) (v0 : Transaction) (l : List Transaction)
    (v1 : Transaction) (hid : v1.id = i) : RowTrack i v0 (l ++ [v1]) v1 := by
  intro db _
  rw [applySaves, List.foldl_append]
  rw [show List.foldl applyTx db l = applySaves db l from rfl]
  simpa [applySaves, hid] using rowsEq_applyTx_self (applySaves db l) v1

/-- Row tracking composes sequentially. -/
theorem rowTrack_comp (i : Nat) (v0 v1 v2 : Transaction)
    (l1 l2 : List Transaction) (h1 : RowTrack i v0 l1 v1)
    (h2 : RowTrack i v1 l2 v2) : RowTrack i v0 (l1 ++ l2) v2 := by
  intro db h
  rw [applySaves, List.foldl_append]
  exact h2 _ (h1 db h)

/-- Provisioning a channel account only assigns the channel fields; the
snapshot it persists is the returned record. -/
theorem gck_pres (env : Env) (t : Transaction) :
    SameCore (MultiSigTransactions.get_channel_keypair env t).1 t
    ∧ (∀ s ∈ (MultiSigTransactions.get_channel_keypair env t).2.2.saves,
        s = (MultiSigTransactions.get_channel_keypair env t).1)
    ∧ (MultiSigTransactions.get_channel_keypair env t).2.2.submissions = [] := by
  unfold MultiSigTransactions.get_channel_keypair
  cases t.channel_account <;> simp [SameCore, Eff.nil]

/-- The funding choice only assigns the channel fields; the snapshots it
persists equal the returned record. -/
theorem fundingChoice_pres (env : Env) (t : Transaction) :
    SameCore (fundingChoice env t).1 t
    ∧ (∀ s ∈ (fundingChoice env t).2.2.saves, s = (fundingChoice env t).1)
    ∧ (fundingChoice env t).2.2.submissions = [] := by
  unfold fundingChoice
  split
  · exact gck_pres env t
  · simp [SameCore, Eff.nil]

/-- The destination-account resolver only assigns the channel fields of the
record; every snapshot it persists equals its final record. -/
theorem goc_pres (env : Env) (t : Transaction) :
    SameCore (PendingDeposits.get_or_create_destination_account env t).txn t
    ∧ (∀ s ∈ (PendingDeposits.get_or_create_destination_account env t).eff.saves,
        s = (PendingDeposits.get_or_create_destination_account env t).txn) := by
  obtain ⟨hc, hs, _⟩ := fundingChoice_pres env t
  unfold PendingDeposits.get_or_create_destination_account
  split
  · simp [SameCore, Eff.nil]
  · simp [SameCore, Eff.nil]
  · simp only []
    cases hg : get_account_obj env (env.pubOf (fundingChoice env t).2.1) with
    | error e =>
        simp only [hg]
        exact ⟨hc, hs⟩
    | ok srcAcc =>
        simp only [hg]
        cases hsub : env.submitTx
            (createAccountEnvelope env t srcAcc (fundingChoice env t).2.1) with
        | horizonError cls m =>
            simp only [hsub]
            exact ⟨hc, by simpa [Eff.comb] using hs⟩
        | response r =>
            simp only [hsub]
            cases hp : get_account_obj_post env t.stellar_account with
            | error e =>
                simp only [hp]
                exact ⟨hc, by simpa [Eff.comb] using hs⟩
            | ok a2 =>
                simp only [hp]
                exact ⟨hc, by simpa [Eff.comb] using hs⟩

/-- Shape of `save_as_pending_signatures`: its snapshots never move to
pending_stellar, it keeps id and asset, and when it returns normally its
snapshots track rows to its final record. -/
theorem sap_pres (env : Env) (t : Transaction) :
    StepPres t (MultiSigTransactions.save_as_pending_signatures env t).eff.saves
      (MultiSigTransactions.save_as_pending_signatures env t).txn
    ∧ (MultiSigTransactions.save_as_pending_signatures env t).txn.asset = t.asset
    ∧ (MultiSigTransactions.save_as_pending_signatures env t).txn.id = t.id
    ∧ (∀ s ∈ (MultiSigTransactions.save_as_pending_signatures env t).eff.saves,
        s.id = t.id)
    ∧ ((MultiSigTransactions.save_as_pending_signatures env t).err = none →
        RowTrack t.id t
          (MultiSigTransactions.save_as_pending_signatures env t).eff.saves
          (MultiSigTransactions.save_as_pending_signatures env t).txn) := by
  obtain ⟨⟨hid, hasset, hstat, henv, hpsig, _⟩, hsv, _⟩ :=
    gck_pres env t
  unfold MultiSigTransactions.save_as_pending_signatures
  simp only []
  have base : ∀ s ∈ (MultiSigTransactions.get_channel_keypair env t).2.2.saves,
      StIn t s := by
    intro s hsm
    rw [hsv s hsm]
    exact Or.inl hstat
  have baseid : ∀ s ∈ (MultiSigTransactions.get_channel_keypair env t).2.2.saves,
      s.id = t.id := by
    intro s hsm
    rw [hsv s hsm]
    exact hid
  split
  next m =>
    refine ⟨⟨?_, ?_, ?_⟩, hasset, hid, ?_, fun _ => ?_⟩
    · intro s hsm
      simp only [Eff.comb, List.mem_append, List.mem_singleton] at hsm
      rcases hsm with hsm | rfl
      · exact base s hsm
      · exact Or.inr (Or.inl rfl)
    · exact Or.inr (Or.inl rfl)
    · exact Or.inl ⟨henv, hpsig⟩
    · intro s hsm
      simp only [Eff.comb, List.mem_append, List.mem_singleton] at hsm
      rcases hsm with hsm | rfl
      · exact baseid s hsm
      · exact hid
    · exact rowTrack_snoc _ _ _ _ hid
  next e he =>
    exact ⟨⟨base, Or.inl hstat, Or.inl ⟨henv, hpsig⟩⟩, hasset, hid, baseid,
      fun hcontra => absurd hcontra (by simp)⟩
  next channelAcc hch =>
    split
    next e he =>
      exact ⟨⟨base, Or.inl hstat, Or.inl ⟨henv, hpsig⟩⟩, hasset, hid, baseid,
        fun hcontra => absurd hcontra (by simp)⟩
    next envlp he =>
      refine ⟨⟨?_, ?_, ?_⟩, hasset, hid, ?_, fun _ => ?_⟩
      · intro s hsm
        simp only [Eff.comb, List.mem_append, List.mem_singleton] at hsm
        rcases hsm with hsm | rfl
        · exact base s hsm
        · exact Or.inr (Or.inr (Or.inr rfl))
      · exact Or.inr (Or.inr (Or.inr rfl))
      · exact Or.inr ⟨_, List.mem_append_right _ (List.mem_singleton.mpr rfl),
          by simp [flaggedB]⟩
      · intro s hsm
        simp only [Eff.comb, List.mem_append, List.mem_singleton] at hsm
        rcases hsm with hsm | rfl
        · exact baseid s hsm
        · exact hid
      · exact rowTrack_snoc _ _ _ _ hid

/-- Three persisted snapshots ending with the final record track rows to
it. -/
theorem rowTrack_three (i : Nat) (v0 x y z : Transaction) (hid : z.id = i) :
    RowTrack i v0 [x, y, z] z := by
  intro db _
  show RowsEq (applyTx (applyTx (applyTx db x) y) z) i z
  have h := rowsEq_applyTx_self (applyTx (applyTx db x) y) z
  rwa [hid] at h

/-- `submit` keeps the record's id and asset, persists only snapshots
carrying the record's id, and, when it returns normally, its snapshots
track rows to its final record. -/
theorem submit_pres (env : Env) (t : Transaction) :
    (PendingDeposits.submit env t).txn.id = t.id
    ∧ (PendingDeposits.submit env t).txn.asset = t.asset
    ∧ (∀ s ∈ (PendingDeposits.submit env t).eff.saves, s.id = t.id)
    ∧ ((PendingDeposits.submit env t).err = none →
        RowTrack t.id t (PendingDeposits.submit env t).eff.saves
          (PendingDeposits.submit env t).txn) := by
  unfold PendingDeposits.submit
  split
  · exact ⟨rfl, rfl, by simp [Eff.nil], fun h => absurd h (by simp)⟩
  · simp only []
    split
    next e he => exact ⟨rfl, rfl, by simp, fun h => absurd h (by simp)⟩
    next envF he =>
      split
      next cls m =>
        exact ⟨rfl, rfl, by simp [PendingDeposits.handle_error],
          fun _ => rowTrack_three _ _ _ _ _ rfl⟩
      next r hr =>
        split
        · exact ⟨rfl, rfl, by simp [PendingDeposits.handle_error],
            fun _ => rowTrack_three _ _ _ _ _ rfl⟩
        · split <;>
            exact ⟨rfl, rfl, by simp [PendingDeposits.handle_error],
              fun _ => rowTrack_three _ _ _ _ _ rfl⟩

/-- A single persisted snapshot equal to the final record tracks rows to
it. -/
theorem rowTrack_one (i : Nat) (v0 z : Transaction) (hid : z.id = i) :
    RowTrack i v0 [z] z := by
  intro db _
  show RowsEq (applyTx db z) i z
  have h := rowsEq_applyTx_self db z
  rwa [hid] at h

/-- The funding choice's snapshots track rows to its returned record. -/
theorem fundingChoice_track (env : Env) (t : Transaction) :
    RowTrack t.id t (fundingChoice env t).2.2.saves (fundingChoice env t).1 := by
  unfold fundingChoice MultiSigTransactions.get_channel_keypair
  split
  · split
    · exact rowTrack_nil _ _
    · simp only []
      exact rowTrack_one _ _ _ rfl
  · exact rowTrack_nil _ _

/-- The destination-account resolver's snapshots track rows to its final
record. -/
theorem goc_rowTrack (env : Env) (t : Transaction) :
    RowTrack t.id t
      (PendingDeposits.get_or_create_destination_account env t).eff.saves
      (PendingDeposits.get_or_create_destination_account env t).txn := by
  have hft := fundingChoice_track env t
  unfold PendingDeposits.get_or_create_destination_account
  split
  · exact rowTrack_nil _ _
  · exact rowTrack_nil _ _
  · simp only []
    cases hg : get_account_obj env (env.pubOf (fundingChoice env t).2.1) with
    | error e =>
        simp only [hg]
        exact hft
    | ok srcAcc =>
        simp only [hg]
        cases hsub : env.submitTx
            (createAccountEnvelope env t srcAcc (fundingChoice env t).2.1) with
        | horizonError cls m =>
            simp only [hsub]
            simpa [Eff.comb] using hft
        | response r =>
            simp only [hsub]
            cases hp : get_account_obj_post env t.stellar_account with
            | error e =>
                simp only [hp]
                simpa [Eff.comb] using hft
            | ok a2 =>
                simp only [hp]
                simpa [Eff.comb] using hft

/-- Driver-step shapes compose sequentially. -/
theorem stepPres_comp (t v1 v2 : Transaction) (s1 s2 : List Transaction)
    (h1 : StepPres t s1 v1) (h2 : StepPres v1 s2 v2) :
    StepPres t (s1 ++ s2) v2 := by
  obtain ⟨ha1, hb1, hc1⟩ := h1
  obtain ⟨ha2, hb2, hc2⟩ := h2
  have hstep : ∀ s : Transaction, StIn v1 s → StIn t s := by
    intro s hs
    unfold StIn at hs hb1 ⊢
    rcases hs with hs | hs | hs | hs
    · rw [hs]
      exact hb1
    · exact Or.inr (Or.inl hs)
    · exact Or.inr (Or.inr (Or.inl hs))
    · exact Or.inr (Or.inr (Or.inr hs))
  refine ⟨?_, hstep _ hb2, ?_⟩
  · intro s hs
    rcases List.mem_append.mp hs with hs | hs
    · exact ha1 s hs
    · exact hstep s (ha2 s hs)
  · rcases hc2 with ⟨he2, hp2⟩ | ⟨s, hs, hf⟩
    · rcases hc1 with ⟨he1, hp1⟩ | ⟨s, hs, hf⟩
      · exact Or.inl ⟨he2.trans he1, hp2.trans hp1⟩
      · exact Or.inr ⟨s, List.mem_append_left _ hs, hf⟩
    · exact Or.inr ⟨s, List.mem_append_right _ hs, hf⟩

/-- The trivial driver-step shape: nothing persisted, record unchanged. -/
theorem stepPres_rfl (t : Transaction) : StepPres t [] t :=
  ⟨by simp, Or.inl rfl, Or.inl ⟨rfl, rfl⟩⟩

/-- Whether multisig is required depends only on the asset. -/
theorem requires_multisig_congr (a b : Transaction) (h : a.asset = b.asset) :
    MultiSigTransactions.requires_multisig a
      = MultiSigTransactions.requires_multisig b := by
  unfold MultiSigTransactions.requires_multisig
  rw [h]

/-- `execute_deposit` keeps the record's id and asset, persists only
snapshots carrying the record's id, tracks rows to its final record when it
returns normally, and on a multisig deposit has the driver-step shape
(in particular it never persists a pending_stellar snapshot). -/
theorem exec_pres (env : Env) (t : Transaction) :
    (Command.execute_deposit env t).txn.id = t.id
    ∧ (Command.execute_deposit env t).txn.asset = t.asset
    ∧ (∀ s ∈ (Command.execute_deposit env t).eff.saves, s.id = t.id)
    ∧ ((Command.execute_deposit env t).err = none →
        RowTrack t.id t (Command.execute_deposit env t).eff.saves
          (Command.execute_deposit env t).txn)
    ∧ (MultiSigTransactions.requires_multisig t = true →
        StepPres t (Command.execute_deposit env t).eff.saves
          (Command.execute_deposit env t).txn) := by
  obtain ⟨⟨hid, hasset, hstat, henv, hpsig, hcbs⟩, hsv⟩ := goc_pres env t
  have hRT := goc_rowTrack env t
  have hSP : StepPres t
      (PendingDeposits.get_or_create_destination_account env t).eff.saves
      (PendingDeposits.get_or_create_destination_account env t).txn :=
    ⟨fun s hs => (hsv s hs) ▸ Or.inl hstat, Or.inl hstat, Or.inl ⟨henv, hpsig⟩⟩
  have hgid : ∀ s ∈ (PendingDeposits.get_or_create_destination_account
      env t).eff.saves, s.id = t.id := fun s hs => (hsv s hs) ▸ hid
  unfold Command.execute_deposit
  simp only []
  split
  next m hge =>
    refine ⟨hid, hasset, ?_, fun _ => ?_, fun _ => ?_⟩
    · intro s hs
      simp only [Eff.comb, List.mem_append, List.mem_singleton] at hs
      rcases hs with hs | rfl
      · exact hgid s hs
      · exact hid
    · exact rowTrack_snoc _ _ _ _ hid
    · refine ⟨?_, Or.inr (Or.inl rfl), Or.inl ⟨henv, hpsig⟩⟩
      intro s hs
      simp only [Eff.comb, List.mem_append, List.mem_singleton] at hs
      rcases hs with hs | rfl
      · exact hSP.1 s hs
      · exact Or.inr (Or.inl rfl)
  next e hge hne =>
    exact ⟨hid, hasset, hgid, fun h => absurd h (by simp), fun _ => hSP⟩
  next hge hgr =>
    exact ⟨hid, hasset, hgid, fun _ => hRT, fun _ => hSP⟩
  next pr hge hgr =>
    split
    · refine ⟨hid, hasset, ?_, fun _ => ?_, fun _ => ?_⟩
      · intro s hs
        simp only [Eff.comb, List.mem_append, List.mem_singleton] at hs
        rcases hs with hs | rfl
        · exact hgid s hs
        · exact hid
      · exact rowTrack_snoc _ _ _ _ hid
      · refine ⟨?_, Or.inr (Or.inr (Or.inl rfl)), Or.inl ⟨henv, hpsig⟩⟩
        intro s hs
        simp only [Eff.comb, List.mem_append, List.mem_singleton] at hs
        rcases hs with hs | rfl
        · exact hSP.1 s hs
        · exact Or.inr (Or.inr (Or.inl rfl))
    · split
      · obtain ⟨hsp2, has2, hid2, hids2, hrt2⟩ :=
          sap_pres env (PendingDeposits.get_or_create_destination_account env t).txn
        refine ⟨hid2.trans hid, has2.trans hasset, ?_, fun hn => ?_, fun _ => ?_⟩
        · intro s hs
          simp only [Eff.comb, List.mem_append] at hs
          rcases hs with hs | hs
          · exact hgid s hs
          · exact (hids2 s hs).trans hid
        · refine rowTrack_comp _ _ _ _ _ _ hRT ?_
          have := hrt2 hn
          rwa [hid] at this
        · exact stepPres_comp _ _ _ _ _ hSP hsp2
      · obtain ⟨hid2, has2, hids2, hrt2⟩ :=
          submit_pres env (PendingDeposits.get_or_create_destination_account env t).txn
        refine ⟨hid2.trans hid, has2.trans hasset, ?_, fun hn => ?_, fun hms => ?_⟩
        · intro s hs
          simp only [Eff.comb, List.mem_append] at hs
          rcases hs with hs | hs
          · exact hgid s hs
          · exact (hids2 s hs).trans hid
        · refine rowTrack_comp _ _ _ _ _ _ hRT ?_
          have := hrt2 hn
          rwa [hid] at this
        · next hnm =>
            rw [requires_multisig_congr _ t hasset, hms] at hnm
            exact absurd rfl hnm

/-- The per-deposit balance scan of the trustline poller keeps the record's
id and asset, persists only snapshots carrying the record's id, tracks rows
to its final record when it returns normally, and on a multisig deposit has
the driver-step shape. -/
theorem tbl_pres (env : Env) :
    ∀ (bal : List Balance) (t : Transaction),
      (trustBalanceLoop env t bal).txn.id = t.id
      ∧ (trustBalanceLoop env t bal).txn.asset = t.asset
      ∧ (∀ s ∈ (trustBalanceLoop env t bal).eff.saves, s.id = t.id)
      ∧ ((trustBalanceLoop env t bal).err = none →
          RowTrack t.id t (trustBalanceLoop env t bal).eff.saves
            (trustBalanceLoop env t bal).txn)
      ∧ (MultiSigTransactions.requires_multisig t = true →
          StepPres t (trustBalanceLoop env t bal).eff.saves
            (trustBalanceLoop env t bal).txn)
  | [], t =>
      ⟨rfl, rfl, by simp [trustBalanceLoop, Eff.nil],
        fun _ => rowTrack_nil _ _, fun _ => stepPres_rfl t⟩
  | b :: rest, t => by
      rw [trustBalanceLoop]
      split
      · exact tbl_pres env rest t
      · split
        · split
          next hms =>
            simp only []
            split
            next e hre =>
              obtain ⟨hsp, has, hid, hids, _⟩ := sap_pres env t
              exact ⟨hid, has, hids, fun h => absurd h (by simp), fun _ => hsp⟩
            next hre =>
              obtain ⟨hsp, has, hid, hids, hrt⟩ := sap_pres env t
              obtain ⟨hid2, has2, hids2, hrt2, hsp2⟩ :=
                tbl_pres env rest (MultiSigTransactions.save_as_pending_signatures env t).txn
              refine ⟨hid2.trans hid, has2.trans has, ?_, fun hn => ?_, fun hm => ?_⟩
              · intro s hs
                simp only [Eff.comb, List.mem_append] at hs
                rcases hs with hs | hs
                · exact hids s hs
                · exact (hids2 s hs).trans hid
              · refine rowTrack_comp _ _ _ _ _ _ (hrt hre) ?_
                have h2 := hrt2 hn
                rwa [hid] at h2
              · refine stepPres_comp _ _ _ _ _ hsp ?_
                refine hsp2 ?_
                rwa [requires_multisig_congr _ t has]
          next hms =>
            simp only []
            split
            next e hre =>
              obtain ⟨hid, has, hids, _⟩ := submit_pres env t
              exact ⟨hid, has, hids, fun h => absurd h (by simp),
                fun hm => absurd hm hms⟩
            next hre =>
              obtain ⟨hid, has, hids, hrt⟩ := submit_pres env t
              obtain ⟨hid2, has2, hids2, hrt2, hsp2⟩ :=
                tbl_pres env rest (PendingDeposits.submit env t).txn
              refine ⟨hid2.trans hid, has2.trans has, ?_, fun hn => ?_,
                fun hm => absurd hm hms⟩
              · intro s hs
                simp only [Eff.comb, List.mem_append] at hs
                rcases hs with hs | hs
                · exact hids s hs
                · exact (hids2 s hs).trans hid
              · refine rowTrack_comp _ _ _ _ _ _ (hrt hre) ?_
                have h2 := hrt2 hn
                rwa [hid] at h2
        · exact tbl_pres env rest t

/-- In a database with pairwise distinct row ids, every row carrying a
member's id is that member. -/
theorem nodup_rowsEq (db : List Transaction)
    (hnd : (db.map Transaction.id).Nodup) (t : Transaction) (ht : t ∈ db) :
    RowsEq db t.id t := fun _ hu hid =>
  List.inj_on_of_nodup_map hnd hu ht hid

/-- `feeFill` keeps the record's id. -/
theorem feeFill_id (env : Env) (t : Transaction) : (feeFill env t).id = t.id := by
  unfold feeFill
  split <;> rfl

/-- Every snapshot persisted by the validation loop is the fee fill-in of
some adapter-returned record. -/
theorem getReadyLoop_saves (env : Env) :
    ∀ l : List Transaction, ∀ s ∈ (getReadyLoop env l).2, ∃ u ∈ l, s = feeFill env u
  | [], s => by simp [getReadyLoop]
  | t :: rest, s => by
      intro hs
      rw [getReadyLoop] at hs
      split at hs
      · simp at hs
      · split at hs
        · simp at hs
        · simp only [List.mem_append] at hs
          rcases hs with hs | hs
          · split at hs
            · simp only [List.mem_singleton] at hs
              exact ⟨t, List.mem_cons_self _ _, hs⟩
            · simp at hs
          · obtain ⟨u, hu, he⟩ := getReadyLoop_saves env rest s hs
            exact ⟨u, List.mem_cons_of_mem _ hu, he⟩

/-- Rows carrying an id absent from the processed list survive the ready
loop unchanged. -/
theorem runDeposits_pres (env : Env) (i : Nat) (v : Transaction) :
    ∀ (l db : List Transaction) (eff : Eff),
      (∀ u ∈ l, u.id ≠ i) → RowsEq db i v →
      RowsEq (runDeposits env db l eff).db i v
  | [], db, eff, _, h => h
  | u :: rest, db, eff, hl, h => by
      obtain ⟨_, _, hids, _, _⟩ := exec_pres env u
      have hne := hl u (List.mem_cons_self _ _)
      have h1 : RowsEq (applySaves db (Command.execute_deposit env u).eff.saves) i v :=
        applySaves_pres _ i v db (fun s hs => (hids s hs) ▸ hne) h
      rw [runDeposits]
      split
      · exact h1
      · exact runDeposits_pres env i v rest _ _
          (fun x hx => hl x (List.mem_cons_of_mem _ hx)) h1

/-- Rows carrying an id absent from the processed list survive the re-scan
loop unchanged. -/
theorem runRescan_pres (env : Env) (i : Nat) (v : Transaction) :
    ∀ (l db : List Transaction) (eff : Eff),
      (∀ u ∈ l, u.id ≠ i) → RowsEq db i v →
      RowsEq (runRescan env db l eff).db i v
  | [], db, eff, _, h => h
  | u :: rest, db, eff, hl, h => by
      obtain ⟨_, _, hids, _⟩ := submit_pres env u
      have hne := hl u (List.mem_cons_self _ _)
      have h1 : RowsEq (applySaves db (PendingDeposits.submit env u).eff.saves) i v :=
        applySaves_pres _ i v db (fun s hs => (hids s hs) ▸ hne) h
      rw [runRescan]
      split
      · exact h1
      · exact runRescan_pres env i v rest _ _
          (fun x hx => hl x (List.mem_cons_of_mem _ hx)) h1

/-- Rows carrying an id absent from the processed list survive the
trustline loop unchanged. -/
theorem runTrust_pres (env : Env) (i : Nat) (v : Transaction) :
    ∀ (l db : List Transaction) (cache : List (String × Account)) (eff : Eff),
      (∀ u ∈ l, u.id ≠ i) → RowsEq db i v →
      RowsEq (runTrust env db l cache eff).db i v
  | [], db, cache, eff, _, h => h
  | u :: rest, db, cache, eff, hl, h => by
      have hne := hl u (List.mem_cons_self _ _)
      have hrest := fun x hx => hl x (List.mem_cons_of_mem _ hx)
      rw [runTrust]
      split
      next a hlk =>
        obtain ⟨_, _, hids, _, _⟩ := tbl_pres env a.balances u
        have h1 : RowsEq (applySaves db (trustProcess env u a).eff.saves) i v :=
          applySaves_pres _ i v db (fun s hs => (hids s hs) ▸ hne) h
        simp only []
        split
        · exact h1
        · exact runTrust_pres env i v rest _ _ _ hrest h1
      next hlk =>
        split
        next a hacc =>
          obtain ⟨_, _, hids, _, _⟩ := tbl_pres env a.balances u
          have h1 : RowsEq (applySaves db (trustProcess env u a).eff.saves) i v :=
            applySaves_pres _ i v db (fun s hs => (hids s hs) ▸ hne) h
          simp only []
          split
          · exact h1
          · exact runTrust_pres env i v rest _ _ _ hrest h1
        next hacc => exact runTrust_pres env i v rest _ _ _ hrest h

/-- Every record in the list returned by a successful validation loop is
the fee fill-in of some adapter-returned record. -/
theorem getReadyLoop_ok_members (env : Env) :
    ∀ (l res : List Transaction), (getReadyLoop env l).1 = .ok res →
      ∀ u ∈ res, ∃ w ∈ l, u = feeFill env w
  | [], res, h, u => by
      simp only [getReadyLoop] at h
      injection h with h
      rw [← h]
      simp
  | t :: rest, res, h, u => by
      intro hu
      rw [getReadyLoop] at h
      split at h
      · simp at h
      · split at h
        · simp at h
        · simp only [] at h
          rcases hr : (getReadyLoop env rest).1 with e | res'
          · rw [hr] at h
            exact absurd
              (show (Except.error e : Except PyErr (List Transaction))
                  = Except.ok res from h) (by simp)
          · rw [hr] at h
            have h2 : (Except.ok (feeFill env t :: res')
                : Except PyErr (List Transaction)) = Except.ok res := h
            injection h2 with h2
            rw [← h2] at hu
            rcases List.mem_cons.mp hu with rfl | hu'
            · exact ⟨t, List.mem_cons_self _ _, rfl⟩
            · obtain ⟨w, hw, he⟩ := getReadyLoop_ok_members env rest res' hr u hu'
              exact ⟨w, List.mem_cons_of_mem _ hw, he⟩

/-- When `submit` returns success, it has set amount_out to the rounded
net amount. -/
theorem submit_amount_out (env : Env) (t : Transaction) (a f : ℚ)
    (hin : t.amount_in = some a) (hfee : t.amount_fee = some f)
    (hok : (PendingDeposits.submit env t).ok = true) :
    (PendingDeposits.submit env t).txn.amount_out
      = some (roundDec (a - f) t.asset.significant_decimals) := by
  by_cases hvv : t.status ∈ PendingDeposits.validStatuses
  case neg =>
    exfalso
    simp [PendingDeposits.submit, hvv] at hok
  case pos =>
    have hcond : ¬((!PendingDeposits.validStatuses.contains t.status) = true) := by
      simp [hvv]
    rcases he : PendingDeposits.envelopeOf env
        { t with status := Status.pending_anchor, status_eta := some 5 } with e | envF
    · simp only [PendingDeposits.submit, if_neg hcond, he] at hok
      exact Bool.noConfusion hok
    · rcases hs : env.submitTx envF with ⟨cls, m⟩ | r
      · simp only [PendingDeposits.submit, if_neg hcond, he, hs] at hok
        exact Bool.noConfusion hok
      · cases hsucc : r.successful
        · simp only [PendingDeposits.submit, if_neg hcond, he, hs, hsucc,
            Bool.not_false, eq_self_iff_true, if_true] at hok
          exact Bool.noConfusion hok
        · simp only [PendingDeposits.submit, if_neg hcond, he, hs, hsucc,
            Bool.not_true, Bool.false_eq_true, if_false]
          split <;> simp [hin, hfee]

/-- C1: once `submit` completes a deposit, amount_out equals
`round(amount_in - amount_fee, significant_decimals)`, and no later pass of
the per-cycle driver (with a contract-abiding polling adapter) or of the
trustline poller modifies the amount_out of a completed deposit. -/
theorem C1_amount_out_final (env : Env) (t tc : Transaction)
    (db : List Transaction) (a f : ℚ)
    (hin : t.amount_in = some a) (hfee : t.amount_fee = some f)
    (hnd : (db.map Transaction.id).Nodup)
    (hmem : tc ∈ db) (hc : tc.status = Status.completed)
    (hsubset : ∀ u ∈ env.pollPendingDeposits (db.filter readyFilter),
        u ∈ db.filter readyFilter) :
    ((PendingDeposits.submit env t).ok = true →
        (PendingDeposits.submit env t).txn.amount_out
          = some (roundDec (a - f) t.asset.significant_decimals))
    ∧ (∀ u ∈ (Command.execute_deposits env db).db, u.id = tc.id →
        u.amount_out = tc.amount_out)
    ∧ (∀ u ∈ (Command.check_trustlines env db).db, u.id = tc.id →
        u.amount_out = tc.amount_out) := by
  have hrows : RowsEq db tc.id tc := nodup_rowsEq db hnd tc hmem
  have hready_tc : readyFilter tc = false := by
    simp [readyFilter, hc]
  have hresc_tc : rescanFilter tc = false := by
    simp [rescanFilter, hc]
  have htrust_tc : trustFilter tc = false := by
    simp [trustFilter, hc]
  have huniq : ∀ u ∈ db, u.id = tc.id → u = tc := hrows
  refine ⟨submit_amount_out env t a f hin hfee, ?_, ?_⟩
  · -- the per-cycle driver
    have hsaves_ne : ∀ s ∈ (PendingDeposits.get_ready_deposits env db).2,
        s.id ≠ tc.id := by
      intro s hs hsid
      obtain ⟨w, hw, hse⟩ := getReadyLoop_saves env _ s hs
      have hwc := hsubset w hw
      have hwid : w.id = tc.id := by rw [← hsid, hse, feeFill_id]
      have : w = tc := huniq w (List.mem_of_mem_filter hwc) hwid
      rw [this] at hwc
      rw [List.mem_filter] at hwc
      rw [hready_tc] at hwc
      exact absurd hwc.2 (by simp)
    have hrows0 : RowsEq (applySaves db (PendingDeposits.get_ready_deposits env db).2)
        tc.id tc :=
      applySaves_pres _ _ _ _ hsaves_ne hrows
    have hids0 : (applySaves db (PendingDeposits.get_ready_deposits env db).2).map
        Transaction.id = db.map Transaction.id := applySaves_map_id _ _
    intro u hu hid
    unfold Command.execute_deposits at hu
    simp only [] at hu
    split at hu
    · exact congrArg Transaction.amount_out (hrows0 u hu hid)
    next ready hready =>
      have hready_mem : ∀ w ∈ ready, ∃ x, x ∈ env.pollPendingDeposits
          (db.filter readyFilter) ∧ w = feeFill env x :=
        fun w hw => by
          obtain ⟨x, hx, he⟩ := getReadyLoop_ok_members env _ _ hready w hw
          exact ⟨x, hx, he⟩
      have hready_ne : ∀ w ∈ ready, w.id ≠ tc.id := by
        intro w hw hwid
        obtain ⟨x, hx, he⟩ := hready_mem w hw
        have hxc := hsubset x hx
        have hxid : x.id = tc.id := by rw [← hwid, he, feeFill_id]
        have : x = tc := huniq x (List.mem_of_mem_filter hxc) hxid
        rw [this] at hxc
        rw [List.mem_filter] at hxc
        rw [hready_tc] at hxc
        exact absurd hxc.2 (by simp)
      have hrows1 : RowsEq (runDeposits env
          (applySaves db (PendingDeposits.get_ready_deposits env db).2) ready
          ⟨(PendingDeposits.get_ready_deposits env db).2, [], []⟩).db tc.id tc :=
        runDeposits_pres env tc.id tc ready _ _ hready_ne hrows0
      split at hu
      · exact congrArg Transaction.amount_out (hrows1 u hu hid)
      · have hresc_ne : ∀ w ∈ (runDeposits env
            (applySaves db (PendingDeposits.get_ready_deposits env db).2) ready
            ⟨(PendingDeposits.get_ready_deposits env db).2, [], []⟩).db.filter
              rescanFilter, w.id ≠ tc.id := by
          intro w hw hwid
          have hwdb := List.mem_of_mem_filter hw
          have : w = tc := hrows1 w hwdb hwid
          rw [this] at hw
          rw [List.mem_filter] at hw
          rw [hresc_tc] at hw
          exact absurd hw.2 (by simp)
        exact congrArg Transaction.amount_out
          (runRescan_pres env tc.id tc _ _ _ hresc_ne hrows1 u hu hid)
  · -- the trustline poller
    have htrust_ne : ∀ w ∈ db.filter trustFilter, w.id ≠ tc.id := by
      intro w hw hwid
      have : w = tc := huniq w (List.mem_of_mem_filter hw) hwid
      rw [this] at hw
      rw [List.mem_filter] at hw
      rw [htrust_tc] at hw
      exact absurd hw.2 (by simp)
    intro u hu hid
    unfold Command.check_trustlines at hu
    exact congrArg Transaction.amount_out
      (runTrust_pres env tc.id tc _ _ _ _ htrust_ne hrows u hu hid)

/-- The re-scan loop submits a deposit appearing in its work list and moves
the deposit's rows to the outcome of that submission, provided no uncaught
exception aborts the pass. -/
theorem runRescan_row (env : Env) (t : Transaction) :
    ∀ (l1 l2 db : List Transaction) (eff : Eff),
      (∀ u ∈ l1, u.id ≠ t.id) → (∀ u ∈ l2, u.id ≠ t.id) →
      RowsEq db t.id t →
      (runRescan env db (l1 ++ t :: l2) eff).err = none →
      RowsEq (runRescan env db (l1 ++ t :: l2) eff).db t.id
        (PendingDeposits.submit env t).txn
  | [], l2, db, eff, _, h2, hrows, hn => by
      rw [List.nil_append] at hn ⊢
      rw [runRescan] at hn ⊢
      obtain ⟨hid, _, hids, hrt⟩ := submit_pres env t
      split at hn
      next e hse =>
        exact absurd hn (by simp)
      next hse =>
        have hdb' : RowsEq (applySaves db (PendingDeposits.submit env t).eff.saves)
            t.id (PendingDeposits.submit env t).txn := (hrt hse) db hrows
        exact runRescan_pres env t.id (PendingDeposits.submit env t).txn
          l2 _ (Eff.comb eff (PendingDeposits.submit env t).eff) h2 hdb'
  | u :: l1, l2, db, eff, h1, h2, hrows, hn => by
      rw [List.cons_append] at hn ⊢
      rw [runRescan] at hn ⊢
      obtain ⟨_, _, hids, _⟩ := submit_pres env u
      have hne := h1 u (List.mem_cons_self _ _)
      have hrows' : RowsEq (applySaves db (PendingDeposits.submit env u).eff.saves)
          t.id t :=
        applySaves_pres _ _ _ _ (fun s hs => (hids s hs) ▸ hne) hrows
      split at hn
      next e hse => exact absurd hn (by simp)
      next hse =>
        exact runRescan_row env t l1 l2 _ _
          (fun x hx => h1 x (List.mem_cons_of_mem _ hx)) h2 hrows' hn

/-- C5: a deposit found in pending_anchor with pending_signatures cleared
and a persisted envelope is submitted by the next driver pass, and `submit`
sends the stored envelope as-is: the Horizon submission is exactly the
stored envelope, and the call depends only on the submission outcome and
the clock, not on account fetches, base fees or signing keys. -/
theorem C5_rescan_submits_stored (env : Env) (db : List Transaction)
    (t : Transaction) (e : Envelope)
    (hpoll : env.pollPendingDeposits (db.filter readyFilter) = [])
    (hnd : (db.map Transaction.id).Nodup)
    (hmem : t ∈ db)
    (hk : t.kind = TKind.deposit) (hst : t.status = Status.pending_anchor)
    (hps : t.pending_signatures = false) (henv : t.envelope_xdr = some e)
    (herr : (Command.execute_deposits env db).err = none) :
    (PendingDeposits.submit env t).eff.submissions = [e]
    ∧ (∀ env2 : Env, env2.submitTx = env.submitTx → env2.now = env.now →
        PendingDeposits.submit env2 t = PendingDeposits.submit env t)
    ∧ (∀ u ∈ (Command.execute_deposits env db).db, u.id = t.id →
        u = (PendingDeposits.submit env t).txn) := by
  have hval : t.status ∈ PendingDeposits.validStatuses := by
    rw [hst]
    simp [PendingDeposits.validStatuses]
  have hcond : ¬((!PendingDeposits.validStatuses.contains t.status) = true) := by
    simp [hval]
  have he1 : PendingDeposits.envelopeOf env
      { t with status := Status.pending_anchor, status_eta := some 5 } = .ok e := by
    unfold PendingDeposits.envelopeOf
    simp [henv]
  have he2 : ∀ env2 : Env, PendingDeposits.envelopeOf env2
      { t with status := Status.pending_anchor, status_eta := some 5 } = .ok e := by
    intro env2
    unfold PendingDeposits.envelopeOf
    simp [henv]
  refine ⟨?_, ?_, ?_⟩
  · simp only [PendingDeposits.submit, if_neg hcond, he1]
    rcases hs : env.submitTx e with ⟨cls, m⟩ | r
    · rfl
    · cases hsc : r.successful <;> simp [hsc]
  · intro env2 hsub hnow
    simp only [PendingDeposits.submit, if_neg hcond, he1, he2 env2]
    rw [hsub, hnow]
  · have hexec : Command.execute_deposits env db
        = runRescan env db (db.filter rescanFilter) ⟨[], [], []⟩ := by
      unfold Command.execute_deposits
      unfold PendingDeposits.get_ready_deposits
      rw [hpoll]
      rfl
    have hft : rescanFilter t = true := by
      simp [rescanFilter, hk, hst, hps, henv]
    have hmemf : t ∈ db.filter rescanFilter := List.mem_filter.mpr ⟨hmem, hft⟩
    obtain ⟨l1, l2, hsplit⟩ := List.append_of_mem hmemf
    have hndl : (db.filter rescanFilter).Nodup :=
      List.Nodup.filter _ (List.Nodup.of_map _ hnd)
    rw [hsplit] at hndl
    obtain ⟨hnd1, hnd2, hdisj⟩ := List.nodup_append.mp hndl
    have htl1 : t ∉ l1 := fun hmem1 => hdisj hmem1 (List.mem_cons_self _ _)
    have htl2 : t ∉ l2 := by
      rw [List.nodup_cons] at hnd2
      exact hnd2.1
    have huniq : ∀ u ∈ db, u.id = t.id → u = t := nodup_rowsEq db hnd t hmem
    have h1 : ∀ u ∈ l1, u.id ≠ t.id := by
      intro u hu1 hid1
      have humem : u ∈ db.filter rescanFilter := by
        rw [hsplit]
        exact List.mem_append_left _ hu1
      have : u = t := huniq u (List.mem_of_mem_filter humem) hid1
      exact htl1 (this ▸ hu1)
    have h2 : ∀ u ∈ l2, u.id ≠ t.id := by
      intro u hu2 hid2
      have humem : u ∈ db.filter rescanFilter := by
        rw [hsplit]
        exact List.mem_append_right _ (List.mem_cons_of_mem _ hu2)
      have : u = t := huniq u (List.mem_of_mem_filter humem) hid2
      exact htl2 (this ▸ hu2)
    rw [hexec, hsplit] at herr ⊢
    exact runRescan_row env t l1 l2 db ⟨[], [], []⟩ h1 h2 huniq herr

/-- Splitting a snapshot-history scan over an append. -/
theorem histOk_append (b : Bool) (l1 l2 : List Transaction) :
    histOk b (l1 ++ l2) = (histOk b l1 && histOk (b || l1.any flaggedB) l2) := by
  induction l1 generalizing b with
  | nil => simp [histOk]
  | cons s rest ih =>
      simp only [List.cons_append, histOk, List.any_cons, List.append_eq]
      split
      · simp
      · rw [ih, Bool.or_assoc]

/-- After a flagged snapshot has been passed, the scan accepts anything. -/
theorem histOk_true (l : List Transaction) : histOk true l = true := by
  induction l with
  | nil => rfl
  | cons s rest ih => simpa [histOk] using ih

/-- A stretch of snapshots without pending_stellar passes the scan. -/
theorem histOk_no_stellar (l : List Transaction) :
    ∀ b : Bool, (∀ s ∈ l, s.status ≠ Status.pending_stellar) → histOk b l = true := by
  induction l with
  | nil => exact fun _ _ => rfl
  | cons s rest ih =>
      intro b h
      have hs := h s (List.mem_cons_self _ _)
      rw [histOk]
      rw [if_neg (by simp [hs])]
      exact ih _ fun x hx => h x (List.mem_cons_of_mem _ hx)

/-- One driver step with the multisig step shape keeps the history
invariant when no flagged snapshot has been persisted yet. -/
theorem inv_step (t t' : Transaction) (hist snaps : List Transaction)
    (hok : histOk false hist = true)
    (hsp : StepPres t snaps t')
    (hBn : t.envelope_xdr = none) (hpsf : t.pending_signatures = false)
    (hstn : t.status ≠ Status.pending_stellar)
    (hfl : hist.any flaggedB = false) :
    histOk false (hist ++ snaps) = true
    ∧ (t'.envelope_xdr.isSome = true → (hist ++ snaps).any flaggedB = true)
    ∧ (t'.pending_signatures = true → (hist ++ snaps).any flaggedB = true)
    ∧ (t'.status = Status.pending_stellar → (hist ++ snaps).any flaggedB = true) := by
  obtain ⟨hsaves, htxn, hrest⟩ := hsp
  have hnostell : ∀ s ∈ snaps, s.status ≠ Status.pending_stellar := by
    intro s hs
    rcases hsaves s hs with h | h | h | h
    · rw [h]
      exact hstn
    · rw [h]
      intro hc
      exact Status.noConfusion hc
    · rw [h]
      intro hc
      exact Status.noConfusion hc
    · rw [h]
      intro hc
      exact Status.noConfusion hc
  refine ⟨?_, ?_, ?_, ?_⟩
  · rw [histOk_append, hok, hfl]
    simp [histOk_no_stellar snaps false hnostell]
  · intro hsome
    rcases hrest with ⟨he, _⟩ | ⟨s, hs, hf⟩
    · rw [he, hBn] at hsome
      exact absurd hsome (by simp)
    · rw [List.any_append]
      simp only [Bool.or_eq_true]
      exact Or.inr (List.any_eq_true.mpr ⟨s, hs, hf⟩)
  · intro hpt
    rcases hrest with ⟨_, hp⟩ | ⟨s, hs, hf⟩
    · rw [hp, hpsf] at hpt
      exact absurd hpt (by simp)
    · rw [List.any_append]
      simp only [Bool.or_eq_true]
      exact Or.inr (List.any_eq_true.mpr ⟨s, hs, hf⟩)
  · intro hpt
    rcases htxn with h | h | h | h
    · exact absurd (h.symm.trans hpt) hstn
    · exact Status.noConfusion (h.symm.trans hpt)
    · exact Status.noConfusion (h.symm.trans hpt)
    · exact Status.noConfusion (h.symm.trans hpt)

/-- Every driver step keeps the deposit's asset. -/
theorem step_asset {t : Transaction} {snaps : List Transaction} {t' : Transaction}
    (h : CoreStep t snaps t') : t'.asset = t.asset := by
  cases h with
  | exec env t => exact (exec_pres env t).2.1
  | feeSet t q => rfl
  | rescan env t hf => exact (submit_pres env t).2.1
  | trustline env t a hf => exact (tbl_pres env a.balances t).2.1
  | cosign t hc => rfl

/-- The reachability invariant of a multisig deposit: the snapshot history
passes the flagged-before-pending_stellar scan, and an envelope, a raised
pending-signatures flag or a pending_stellar status on the current record
all certify that a flagged snapshot was persisted. -/
theorem reach_inv (t0 : Transaction)
    (hms : MultiSigTransactions.requires_multisig t0 = true)
    (h0 : t0.status ≠ Status.pending_stellar)
    (henv0 : t0.envelope_xdr = none) (hps0 : t0.pending_signatures = false) :
    ∀ {t : Transaction} {hist : List Transaction}, Reach t0 t hist →
      t.asset = t0.asset
      ∧ histOk false hist = true
      ∧ (t.envelope_xdr.isSome = true → hist.any flaggedB = true)
      ∧ (t.pending_signatures = true → hist.any flaggedB = true)
      ∧ (t.status = Status.pending_stellar → hist.any flaggedB = true) := by
  intro t hist hr
  induction hr with
  | refl =>
      exact ⟨rfl, rfl, by simp [henv0], by simp [hps0], fun h => absurd h h0⟩
  | @step t hist snaps t' hr' hstep ih =>
      obtain ⟨hasset, hok, hB, hD, hE⟩ := ih
      have hasset' : t'.asset = t.asset := step_asset hstep
      by_cases hfl : hist.any flaggedB = true
      · have hok' : histOk false (hist ++ snaps) = true := by
          rw [histOk_append, hok, hfl]
          simp [histOk_true]
        have hany : (hist ++ snaps).any flaggedB = true := by
          rw [List.any_append, hfl]
          simp
        exact ⟨hasset'.trans hasset, hok', fun _ => hany, fun _ => hany,
          fun _ => hany⟩
      · have hflf : hist.any flaggedB = false := by
          cases hx : hist.any flaggedB
          · rfl
          · exact absurd hx hfl
        have hBn : t.envelope_xdr = none := by
          cases he : t.envelope_xdr with
          | none => rfl
          | some e => exact absurd (hB (by simp [he])) hfl
        have hpsf : t.pending_signatures = false := by
          cases hp : t.pending_signatures
          · rfl
          · exact absurd (hD hp) hfl
        have hstn : t.status ≠ Status.pending_stellar := fun h => hfl (hE h)
        have hmst : MultiSigTransactions.requires_multisig t = true := by
          rw [requires_multisig_congr t t0 hasset]
          exact hms
        refine And.intro (hasset'.trans hasset) ?_
        cases hstep with
        | exec env1 t1 =>
            exact inv_step _ _ hist _ hok
              ((exec_pres env1 t).2.2.2.2 hmst) hBn hpsf hstn hflf
        | feeSet t1 q =>
            refine inv_step _ _ hist _ hok ?_ hBn hpsf hstn hflf
            refine ⟨?_, Or.inl rfl, Or.inl ⟨rfl, rfl⟩⟩
            intro s hs
            rw [List.mem_singleton] at hs
            rw [hs]
            exact Or.inl rfl
        | rescan env1 t1 hf =>
            exfalso
            simp only [rescanFilter, Bool.and_eq_true] at hf
            rw [hBn] at hf
            exact absurd hf.2 (by simp)
        | trustline env1 t1 a hf =>
            exact inv_step _ _ hist _ hok
              ((tbl_pres env1 a.balances t).2.2.2.2 hmst) hBn hpsf hstn hflf
        | cosign t1 hc =>
            exact absurd hc (by simp [hpsf])

/-- C4: a deposit whose distribution account requires multisig never
reaches pending_stellar without first passing through a persisted state
with pending_signatures set and an envelope present: along every sequence
of driver steps from a fresh deposit, the persisted-snapshot history passes
the `histOk` scan (every pending_stellar snapshot is strictly preceded by a
snapshot with pending_signatures and an envelope). -/
theorem C4_multisig_gate (t0 t : Transaction) (hist : List Transaction)
    (hms : MultiSigTransactions.requires_multisig t0 = true)
    (h0 : t0.status = Status.pending_user_transfer_start
      ∨ t0.status = Status.pending_external)
    (henv0 : t0.envelope_xdr = none) (hps0 : t0.pending_signatures = false)
    (hr : Reach t0 t hist) :
    histOk false hist = true := by
  have h0' : t0.status ≠ Status.pending_stellar := by
    rcases h0 with h | h <;> rw [h] <;> intro hc <;> exact Status.noConfusion hc
  exact (reach_inv t0 hms h0' henv0 hps0 hr).2.1

/-- A hit in a well-formed account cache is the ledger's fetch result. -/
theorem cacheOk_lookup (env : Env) :
    ∀ (cache : List (String × Account)), CacheOk env cache →
      ∀ (k : String) (a : Account), cache.lookup k = some a →
        env.getAccount k = .found a
  | [], _, k, a, hl => by simp [List.lookup] at hl
  | (k1, v1) :: rest, h, k, a, hl => by
      rw [List.lookup] at hl
      cases hkk : k == k1 with
      | true =>
          rw [hkk] at hl
          injection hl with hl
          have hp := h (k1, v1) (List.mem_cons_self _ _)
          rw [beq_iff_eq.mp hkk, ← hl]
          exact hp
      | false =>
          rw [hkk] at hl
          exact cacheOk_lookup env rest
            (fun p hp => h p (List.mem_cons_of_mem _ hp)) k a hl

/-- A deposit whose destination account cannot be fetched is skipped by the
trustline pass: its rows are left unchanged. -/
theorem runTrust_skip (env : Env) (t : Transaction)
    (hfail : ∀ acc : Account, env.getAccount t.stellar_account ≠ .found acc) :
    ∀ (l db : List Transaction) (cache : List (String × Account)) (eff : Eff),
      (∀ u ∈ l, u.id = t.id → u = t) →
      CacheOk env cache →
      RowsEq db t.id t →
      RowsEq (runTrust env db l cache eff).db t.id t
  | [], db, cache, eff, _, _, hrows => hrows
  | u :: rest, db, cache, eff, hl, hco, hrows => by
      have hrestl := fun x hx => hl x (List.mem_cons_of_mem _ hx)
      rw [runTrust]
      split
      next a hlk =>
        have hune : u.id ≠ t.id := by
          intro he
          have hut := hl u (List.mem_cons_self _ _) he
          rw [hut] at hlk
          exact hfail a (cacheOk_lookup env cache hco _ _ hlk)
        obtain ⟨_, _, hids, _, _⟩ := tbl_pres env a.balances u
        have hrows' : RowsEq (applySaves db (trustProcess env u a).eff.saves)
            t.id t :=
          applySaves_pres _ _ _ db (fun s hs => (hids s hs) ▸ hune) hrows
        simp only []
        split
        · exact hrows'
        · exact runTrust_skip env t hfail rest _ cache _ hrestl hco hrows'
      next hlk =>
        split
        next a hacc =>
          have hune : u.id ≠ t.id := by
            intro he
            have hut := hl u (List.mem_cons_self _ _) he
            rw [hut] at hacc
            exact hfail a hacc
          obtain ⟨_, _, hids, _, _⟩ := tbl_pres env a.balances u
          have hrows' : RowsEq (applySaves db (trustProcess env u a).eff.saves)
              t.id t :=
            applySaves_pres _ _ _ db (fun s hs => (hids s hs) ▸ hune) hrows
          have hco' : CacheOk env (cache ++ [(u.stellar_account, a)]) := by
            intro p hp
            rcases List.mem_append.mp hp with hp | hp
            · exact hco p hp
            · rw [List.mem_singleton] at hp
              rw [hp]
              exact hacc
          simp only []
          split
          · exact hrows'
          · exact runTrust_skip env t hfail rest _ _ _ hrestl hco' hrows'
        next hacc => exact runTrust_skip env t hfail rest db cache eff hrestl hco hrows

/-- In the trustline pass, a deposit whose destination account fetch succeeds
is processed over that account's balances, and its rows end up equal to the
processing result when the pass finishes without error. -/
theorem runTrust_row (env : Env) (t : Transaction) (a : Account)
    (hacc : env.getAccount t.stellar_account = .found a) :
    ∀ (l1 l2 db : List Transaction) (cache : List (String × Account)) (eff : Eff),
      (∀ u ∈ l1, u.id ≠ t.id) → (∀ u ∈ l2, u.id ≠ t.id) →
      CacheOk env cache →
      RowsEq db t.id t →
      (runTrust env db (l1 ++ t :: l2) cache eff).err = none →
      RowsEq (runTrust env db (l1 ++ t :: l2) cache eff).db t.id
        (trustProcess env t a).txn
  | [], l2, db, cache, eff, _, h2, hco, hrows, hn => by
      rw [List.nil_append] at hn ⊢
      rw [runTrust] at hn ⊢
      split at hn
      next a' hlk =>
        have ha' : a' = a := by
          have hfa := cacheOk_lookup env cache hco _ _ hlk
          rw [hacc] at hfa
          injection hfa with hfa
          exact hfa.symm
        subst a'
        obtain ⟨_, _, _, hrt, _⟩ := tbl_pres env a.balances t
        simp only [] at hn ⊢
        split at hn
        next e hre => exact absurd hn (by simp)
        next hre =>
          have hdb' : RowsEq (applySaves db (trustProcess env t a).eff.saves)
              t.id (trustProcess env t a).txn := (hrt hre) db hrows
          exact runTrust_pres env t.id (trustProcess env t a).txn l2 _ cache _ h2 hdb'
      next hlk =>
        rw [hacc] at hn ⊢
        obtain ⟨_, _, _, hrt, _⟩ := tbl_pres env a.balances t
        simp only [] at hn ⊢
        split at hn
        next e hre => exact absurd hn (by simp)
        next hre =>
          have hdb' : RowsEq (applySaves db (trustProcess env t a).eff.saves)
              t.id (trustProcess env t a).txn := (hrt hre) db hrows
          exact runTrust_pres env t.id (trustProcess env t a).txn l2 _ _ _ h2 hdb'
  | u :: l1, l2, db, cache, eff, h1, h2, hco, hrows, hn => by
      rw [List.cons_append] at hn ⊢
      rw [runTrust] at hn ⊢
      have hne := h1 u (List.mem_cons_self _ _)
      have hrest := fun x hx => h1 x (List.mem_cons_of_mem _ hx)
      split at hn
      next a' hlk =>
        obtain ⟨_, _, hids, _, _⟩ := tbl_pres env a'.balances u
        have hrows' : RowsEq (applySaves db (trustProcess env u a').eff.saves)
            t.id t :=
          applySaves_pres _ _ _ _ (fun s hs => (hids s hs) ▸ hne) hrows
        simp only [] at hn ⊢
        split at hn
        next e hre => exact absurd hn (by simp)
        next hre =>
          exact runTrust_row env t a hacc l1 l2 _ cache _ hrest h2 hco hrows' hn
      next hlk =>
        split at hn
        next a' hga =>
          obtain ⟨_, _, hids, _, _⟩ := tbl_pres env a'.balances u
          have hrows' : RowsEq (applySaves db (trustProcess env u a').eff.saves)
              t.id t :=
            applySaves_pres _ _ _ _ (fun s hs => (hids s hs) ▸ hne) hrows
          have hco' : CacheOk env (cache ++ [(u.stellar_account, a')]) := by
            intro p hp
            rcases List.mem_append.mp hp with hp | hp
            · exact hco p hp
            · rw [List.mem_singleton] at hp
              rw [hp]
              exact hga
          simp only [] at hn ⊢
          split at hn
          next e hre => exact absurd hn (by simp)
          next hre =>
            exact runTrust_row env t a hacc l1 l2 _ _ _ hrest h2 hco' hrows' hn
        next hga =>
          exact runTrust_row env t a hacc l1 l2 db cache eff hrest h2 hco hrows hn

/-- C10: in a trustline-poller pass, a network failure (account not found or
any other Horizon request error) while fetching a deposit's destination
account leaves every row with that deposit's id untouched — still the same
record, still pending_trust, never error — while a deposit whose destination
account fetch succeeds is still processed in the same pass: its final row is
the result of scanning that account's balance lines. -/
theorem C10_trustline_fetch_failure (env : Env) (db : List Transaction)
    (t u : Transaction) (a : Account)
    (hnd : (db.map Transaction.id).Nodup)
    (ht : t ∈ db) (htf : trustFilter t = true)
    (hfail : env.getAccount t.stellar_account = .notFound
      ∨ ∃ m, env.getAccount t.stellar_account = .horizonError m)
    (hu : u ∈ db) (huf : trustFilter u = true)
    (hua : env.getAccount u.stellar_account = .found a)
    (herr : (Command.check_trustlines env db).err = none) :
    (∀ v ∈ (Command.check_trustlines env db).db, v.id = t.id →
        v = t ∧ v.status = Status.pending_trust ∧ v.status ≠ Status.error)
    ∧ (∀ v ∈ (Command.check_trustlines env db).db, v.id = u.id →
        v = (trustProcess env u a).txn) := by
  have hstat : t.status = Status.pending_trust := by
    simp only [trustFilter, Bool.and_eq_true, beq_iff_eq] at htf
    exact htf.2
  have hfail' : ∀ acc : Account, env.getAccount t.stellar_account ≠ .found acc := by
    intro acc hc
    rcases hfail with hf | ⟨m, hf⟩ <;> rw [hf] at hc <;> exact FetchRes.noConfusion hc
  constructor
  · have hskip : RowsEq (Command.check_trustlines env db).db t.id t := by
      unfold Command.check_trustlines
      refine runTrust_skip env t hfail' (db.filter trustFilter) db [] Eff.nil ?_ ?_ ?_
      · intro x hx hxid
        exact nodup_rowsEq db hnd t ht x (List.mem_of_mem_filter hx) hxid
      · intro p hp
        exact absurd hp (List.not_mem_nil p)
      · exact nodup_rowsEq db hnd t ht
    intro v hv hvid
    have hvt := hskip v hv hvid
    refine ⟨hvt, by rw [hvt, hstat], ?_⟩
    rw [hvt, hstat]
    exact fun hc => Status.noConfusion hc
  · have hmemf : u ∈ db.filter trustFilter := List.mem_filter.mpr ⟨hu, huf⟩
    obtain ⟨l1, l2, hsplit⟩ := List.append_of_mem hmemf
    have hndl : (db.filter trustFilter).Nodup :=
      List.Nodup.filter _ (List.Nodup.of_map _ hnd)
    rw [hsplit] at hndl
    obtain ⟨hnd1, hnd2, hdisj⟩ := List.nodup_append.mp hndl
    have hul1 : u ∉ l1 := fun hmem1 => hdisj hmem1 (List.mem_cons_self _ _)
    have hul2 : u ∉ l2 := by
      rw [List.nodup_cons] at hnd2
      exact hnd2.1
    have huniq : RowsEq db u.id u := nodup_rowsEq db hnd u hu
    have h1 : ∀ x ∈ l1, x.id ≠ u.id := by
      intro x hx1 hid1
      have hxmem : x ∈ db.filter trustFilter := by
        rw [hsplit]
        exact List.mem_append_left _ hx1
      have hxu : x = u := huniq x (List.mem_of_mem_filter hxmem) hid1
      exact hul1 (hxu ▸ hx1)
    have h2 : ∀ x ∈ l2, x.id ≠ u.id := by
      intro x hx2 hid2
      have hxmem : x ∈ db.filter trustFilter := by
        rw [hsplit]
        exact List.mem_append_right _ (List.mem_cons_of_mem _ hx2)
      have hxu : x = u := huniq x (List.mem_of_mem_filter hxmem) hid2
      exact hul2 (hxu ▸ hx2)
    have hco : CacheOk env ([] : List (String × Account)) := by
      intro p hp
      exact absurd hp (List.not_mem_nil p)
    unfold Command.check_trustlines at herr ⊢
    rw [hsplit] at herr ⊢
    intro v hv hvid
    exact runTrust_row env u a hua l1 l2 db [] Eff.nil h1 h2 hco huniq herr v hv hvid

/-- Witness for C1 at a concrete deposit and a database holding a completed
deposit. -/
theorem C1_amount_out_final_witness :
    ((PendingDeposits.submit wEnv wTxn).ok = true →
        (PendingDeposits.submit wEnv wTxn).txn.amount_out
          = some (roundDec (100 - 1) wTxn.asset.significant_decimals))
    ∧ (∀ u ∈ (Command.execute_deposits wEnv [wTxnDone]).db, u.id = wTxnDone.id →
        u.amount_out = wTxnDone.amount_out)
    ∧ (∀ u ∈ (Command.check_trustlines wEnv [wTxnDone]).db, u.id = wTxnDone.id →
        u.amount_out = wTxnDone.amount_out) :=
  C1_amount_out_final wEnv wTxn wTxnDone [wTxnDone] 100 1 rfl rfl
    (by decide) (List.mem_cons_self _ _) rfl
    (fun u hu => absurd hu (List.not_mem_nil u))

/-- Witness for C2 at a concrete rejected submission. -/
theorem C2_submission_failure_witness :
    (PendingDeposits.submit wEnvFail wTxnStored).ok = false
    ∧ (PendingDeposits.submit wEnvFail wTxnStored).err = none
    ∧ (PendingDeposits.submit wEnvFail wTxnStored).txn.status = Status.error
    ∧ (∃ m, (PendingDeposits.submit wEnvFail wTxnStored).txn.status_message
        = some m ∧ m ≠ "")
    ∧ (PendingDeposits.submit wEnvFail wTxnStored).txn.amount_out
        = wTxnStored.amount_out
    ∧ (PendingDeposits.submit wEnvFail wTxnStored).txn.completed_at
        = wTxnStored.completed_at :=
  C2_submission_failure wEnvFail wTxnStored wEnvlp (by decide) rfl
    (Or.inl ⟨"BadRequestError", "tx failed", rfl⟩)

/-- Witness for C3 at a concrete deposit and ledger. -/
theorem C3_deposit_envelope_operation_witness :
    PendingDeposits.create_deposit_envelope wEnv wTxn wAccDist = .ok
      { sourceAccount := wAccDist.id, sequence := wAccDist.sequence + 1,
        baseFee := effBaseFee wEnv,
        operations := [if wTxn.claimable_balance_supported
            && is_pending_trust wTxn wAccDest
          then Operation.createClaimableBalance [wTxn.stellar_account]
            wTxn.asset.code wTxn.asset.issuer
            (roundDec (100 - 1) wTxn.asset.significant_decimals)
            wTxn.asset.distribution_account
          else Operation.payment wTxn.stellar_account wTxn.asset.code
            wTxn.asset.issuer (roundDec (100 - 1) wTxn.asset.significant_decimals)
            wTxn.asset.distribution_account],
        memo := memoOf wTxn, signatures := [] } :=
  C3_deposit_envelope_operation wEnv wTxn wAccDist wAccDest 100 1 rfl rfl rfl

/-- Witness for C4 at a concrete multisig deposit after one fee-setting
step. -/
theorem C4_multisig_gate_witness :
    histOk false ([] ++ [{ wTxnMS with amount_fee := some 1 }]) = true :=
  C4_multisig_gate wTxnMS { wTxnMS with amount_fee := some 1 }
    ([] ++ [{ wTxnMS with amount_fee := some 1 }])
    (by decide) (Or.inl rfl) rfl rfl
    (Reach.step Reach.refl (CoreStep.feeSet wTxnMS 1))

/-- Witness for C5 at a concrete stored envelope and database. -/
theorem C5_rescan_submits_stored_witness :
    (PendingDeposits.submit wEnv wTxnStored).eff.submissions = [wEnvlp]
    ∧ (∀ env2 : Env, env2.submitTx = wEnv.submitTx → env2.now = wEnv.now →
        PendingDeposits.submit env2 wTxnStored
          = PendingDeposits.submit wEnv wTxnStored)
    ∧ (∀ u ∈ (Command.execute_deposits wEnv [wTxnStored]).db,
        u.id = wTxnStored.id →
        u = (PendingDeposits.submit wEnv wTxnStored).txn) :=
  C5_rescan_submits_stored wEnv [wTxnStored] wTxnStored wEnvlp rfl (by decide)
    (List.mem_cons_self _ _) rfl rfl rfl rfl rfl

/-- Witness for C6 at a concrete missing destination account. -/
theorem C6_fund_missing_destination_witness :
    (PendingDeposits.get_or_create_destination_account wEnvNoDest wTxn).res
        = some (wAccDest, true)
    ∧ (PendingDeposits.get_or_create_destination_account wEnvNoDest wTxn).err
        = none
    ∧ (PendingDeposits.get_or_create_destination_account
        wEnvNoDest wTxn).eff.submissions
        = [createAccountEnvelope wEnvNoDest wTxn wAccDist
            (fundingChoice wEnvNoDest wTxn).2.1]
    ∧ (createAccountEnvelope wEnvNoDest wTxn wAccDist
        (fundingChoice wEnvNoDest wTxn).2.1).operations
        = [Operation.createAccount wTxn.stellar_account
            wEnvNoDest.startingBalance]
    ∧ (createAccountEnvelope wEnvNoDest wTxn wAccDist
        (fundingChoice wEnvNoDest wTxn).2.1).signatures
        = [(fundingChoice wEnvNoDest wTxn).2.1]
    ∧ (createAccountEnvelope wEnvNoDest wTxn wAccDist
        (fundingChoice wEnvNoDest wTxn).2.1).sourceAccount = wAccDist.id
    ∧ (fundingChoice wEnvNoDest wTxn).2.1
        = (if MultiSigTransactions.requires_multisig wTxn then
            (MultiSigTransactions.get_channel_keypair wEnvNoDest wTxn).2.1
           else wTxn.asset.distribution_seed) :=
  C6_fund_missing_destination wEnvNoDest wTxn wAccDist wAccDest wResp
    rfl rfl rfl rfl

/-- Witness for C7 at a completed (non-submittable) deposit. -/
theorem C7_submit_invalid_state_witness :
    (PendingDeposits.submit wEnv wTxnDone).txn = wTxnDone
    ∧ (PendingDeposits.submit wEnv wTxnDone).eff = Eff.nil :=
  (C7_submit_invalid_state wEnv wTxnDone).2 (by decide)

/-- Witness for C8 at a polling adapter returning a contract-violating
record. -/
theorem C8_ready_deposit_validation_witness :
    (∃ m, (PendingDeposits.get_ready_deposits wEnvBadPoll []).1
        = .error (.valueError m))
    ∧ (Command.execute_deposits wEnvBadPoll []).eff.submissions = [] :=
  have h := (C8_ready_deposit_validation wEnvBadPoll []).1
    ⟨wTxnBad, List.mem_cons_self _ _, Or.inl (by decide)⟩
  ⟨h.1, h.2.1⟩

/-- Witness for C9 at a concrete decoded transaction result. -/
theorem C9_get_balance_id_witness :
    PendingDeposits.get_balance_id wRespCCB = some (hexOfBytes wBid.xdrBytes)
    ∧ (hexDecode (hexOfBytes wBid.xdrBytes)).bind decodeBalanceID = some wBid :=
  (C9_get_balance_id wRespCCB wBid [⟨.otherResult⟩] [⟨.otherResult⟩]).2.2
    rfl (by decide)

/-- Witness for C10 at a concrete pass with one failing and one succeeding
account fetch. -/
theorem C10_trustline_fetch_failure_witness :
    (∀ v ∈ (Command.check_trustlines wEnv [wTxnTrustFail, wTxnTrustOk]).db,
        v.id = wTxnTrustFail.id →
        v = wTxnTrustFail ∧ v.status = Status.pending_trust
          ∧ v.status ≠ Status.error)
    ∧ (∀ v ∈ (Command.check_trustlines wEnv [wTxnTrustFail, wTxnTrustOk]).db,
        v.id = wTxnTrustOk.id →
        v = (trustProcess wEnv wTxnTrustOk wAccDest).txn) :=
  C10_trustline_fetch_failure wEnv [wTxnTrustFail, wTxnTrustOk]
    wTxnTrustFail wTxnTrustOk wAccDest (by decide)
    (List.mem_cons_self _ _) (by decide) (Or.inl rfl)
    (List.mem_cons_of_mem _ (List.mem_cons_self _ _)) (by decide) rfl rfl
